import Mathlib

/-!
Verification development for the md2cf core: a shallow embedding of
`src/md2cf/confluence_renderer.py` and `src/md2cf/document.py`.

External collaborators (the mistune markdown parser, the yaml parser,
the filesystem, the gitignore predicate, the uuid source) are modelled
as explicit parameters/oracles, following the spec's component split.
Pure helper functions from the Python standard library (`urllib.parse.urlparse`,
`urllib.parse.unquote`, `pathlib.PurePath.name`, `str.strip`) are embedded
directly since the code's behaviour depends on them.
-/

deriving instance DecidableEq for Except

namespace MD2CF

/-- Python whitespace for `str.strip()` and the regex class `\s` (ASCII range). -/
def pyIsSpace (c : Char) : Bool :=
  c = ' ' || c = '\t' || c = '\n' || c = '\r' || c = '\x0b' || c = '\x0c'

/-- Python `str.strip()` on ASCII whitespace. -/
def pyStrip (s : String) : String :=
  String.mk (((s.data.dropWhile pyIsSpace).reverse.dropWhile pyIsSpace).reverse)

/-- Python `str.lower()` restricted to ASCII (sufficient for the extension and
scheme comparisons in the source). -/
def pyLower (s : String) : String :=
  String.mk (s.data.map Char.toLower)

/-- Membership of a character in a string. -/
def strContainsChar (s : String) (c : Char) : Bool :=
  s.data.contains c

/-- Python `str.endswith` (on the character sequence). -/
def pyEndsWith (s suffixStr : String) : Bool :=
  suffixStr.data.isSuffixOf s.data

/-- Python `str.startswith` (on the character sequence). -/
def pyStartsWith (s pre : String) : Bool :=
  pre.data.isPrefixOf s.data

/-- Fuel-driven core of `str.replace` (left-to-right, non-overlapping); the
fuel is the input length, enough for any non-empty pattern. -/
def replaceFuel (pat repl : List Char) : Nat → List Char → List Char
  | _, [] => []
  | 0, l => l
  | fuel + 1, x :: xs =>
    if pat ≠ [] && pat.isPrefixOf (x :: xs) then
      repl ++ replaceFuel pat repl fuel ((x :: xs).drop pat.length)
    else x :: replaceFuel pat repl fuel xs

/-- Python `str.replace` for a non-empty pattern. -/
def pyReplace (s pat repl : String) : String :=
  String.mk (replaceFuel pat.data repl.data s.data.length s.data)

/-- Python `str.split(sep)` for a single-character separator. -/
def splitListChar (c : Char) (l : List Char) : List (List Char) :=
  l.foldr (fun x acc =>
    match acc with
    | cur :: rest => if x = c then [] :: cur :: rest else (x :: cur) :: rest
    | [] => [[x]]) [[]]

/-- Index of the first occurrence of a character (Python `str.find`),
`none` when absent. -/
def strFindChar (s : List Char) (c : Char) : Option Nat :=
  s.findIdx? (· = c)

/-- Split at the first occurrence of `c`; the delimiter is dropped
(Python `str.split(c, 1)` when `c` occurs). -/
def splitOnceChar (s : List Char) (c : Char) : Option (List Char × List Char) :=
  match strFindChar s c with
  | none => none
  | some i => some (s.take i, s.drop (i + 1))

/-! ## `urllib.parse.urlparse`

Embeds CPython's `urlsplit`/`urlparse` (the parts exercised by the source:
`scheme`, `netloc`, `path`, `params`, `query`, `fragment`). Tab, CR and LF
characters are removed up front as in maintained CPython versions; the
scheme must start with an ASCII letter and consist of letters, digits and
`+-.`; a netloc is present only after a literal `//`. -/

structure UrlParts where
  scheme : String
  netloc : String
  path : String
  params : String
  query : String
  fragment : String
  deriving Repr, DecidableEq

def schemeChar (c : Char) : Bool :=
  c.isAlpha || c.isDigit || c = '+' || c = '-' || c = '.'

/-- Schemes for which CPython's `urlparse` splits `;params` from the path.
The empty scheme is in the list, so plain local paths are subject to it. -/
def usesParams : List String :=
  ["", "ftp", "hdl", "http", "https", "imap", "mms", "prospero",
   "rtsp", "rtspu", "sftp", "shttp", "sip", "sips", "tel"]

/-- CPython `urllib.parse._splitparams`: split `;params` off the last path
segment. -/
def splitParams (u : List Char) : List Char × List Char :=
  if u.contains '/' then
    let afterSlash := u.length - 1 - (u.reverse.findIdx (· = '/'))
    match strFindChar (u.drop afterSlash) ';' with
    | none => (u, [])
    | some j => (u.take (afterSlash + j), u.drop (afterSlash + j + 1))
  else
    match splitOnceChar u ';' with
    | none => (u, [])
    | some (a, b) => (a, b)

def urlparse (url : String) : UrlParts := Id.run do
  -- remove unsafe bytes, as CPython's urlsplit does
  let mut u : List Char := url.data.filter (fun c => !(c = '\t' || c = '\r' || c = '\n'))
  let mut scheme : String := ""
  -- scheme detection
  match strFindChar u ':' with
  | some i =>
      if i > 0 then
        let cand := u.take i
        if cand.head?.elim false Char.isAlpha && cand.all schemeChar then
          scheme := pyLower (String.mk cand)
          u := u.drop (i + 1)
  | none => pure ()
  -- netloc
  let mut netloc : String := ""
  if u.take 2 = ['/', '/'] then
    let rest := u.drop 2
    let n := rest.takeWhile (fun c => !(c = '/' || c = '?' || c = '#'))
    netloc := String.mk n
    u := rest.drop n.length
  -- fragment
  let mut fragment : String := ""
  match splitOnceChar u '#' with
  | some (a, f) => u := a; fragment := String.mk f
  | none => pure ()
  -- query
  let mut query : String := ""
  match splitOnceChar u '?' with
  | some (a, q) => u := a; query := String.mk q
  | none => pure ()
  -- params (urlparse on top of urlsplit)
  let mut params : String := ""
  if usesParams.contains scheme && u.contains ';' then
    let (p, pr) := splitParams u
    u := p
    params := String.mk pr
  return { scheme := scheme, netloc := netloc, path := String.mk u,
           params := params, query := query, fragment := fragment }

/-! ## `urllib.parse.unquote`

Percent-escapes are decoded to bytes; maximal runs of consecutive `%XX`
escapes are decoded as UTF-8 with `errors="replace"`. A `%` not followed by
two hex digits stays literal. -/

def hexVal (c : Char) : Option Nat :=
  let v := c.toNat
  if 48 ≤ v && v ≤ 57 then some (v - 48)
  else if 97 ≤ v && v ≤ 102 then some (v - 87)
  else if 65 ≤ v && v ≤ 70 then some (v - 55)
  else none

/-- Decode a byte list as UTF-8, one replacement character `U+FFFD` per
rejected lead byte (CPython's `errors="replace"` on maximal subparts). -/
def utf8Decode : List Nat → List Char
  | [] => []
  | b :: bs =>
    if b < 0x80 then Char.ofNat b :: utf8Decode bs
    else if 0xc2 ≤ b && b ≤ 0xdf then
      match bs with
      | c :: cs =>
        if 0x80 ≤ c && c ≤ 0xbf then
          Char.ofNat (((b - 0xc0) * 64) + (c - 0x80)) :: utf8Decode cs
        else Char.ofNat 0xfffd :: utf8Decode (c :: cs)
      | [] => [Char.ofNat 0xfffd]
    else if 0xe0 ≤ b && b ≤ 0xef then
      match bs with
      | c :: d :: cs =>
        if 0x80 ≤ c && c ≤ 0xbf && 0x80 ≤ d && d ≤ 0xbf then
          Char.ofNat (((b - 0xe0) * 4096) + ((c - 0x80) * 64) + (d - 0x80)) :: utf8Decode cs
        else Char.ofNat 0xfffd :: utf8Decode (c :: d :: cs)
      | [c] => Char.ofNat 0xfffd :: utf8Decode [c]
      | [] => [Char.ofNat 0xfffd]
    else Char.ofNat 0xfffd :: utf8Decode bs

/-- Tokenize for `unquote`: each valid `%XX` escape becomes a byte, every
other character stays literal. -/
def unquoteTokens : List Char → List (Char ⊕ Nat)
  | '%' :: a :: b :: rest =>
    match hexVal a, hexVal b with
    | some ha, some hb => Sum.inr (ha * 16 + hb) :: unquoteTokens rest
    | _, _ => Sum.inl '%' :: unquoteTokens (a :: b :: rest)
  | c :: rest => Sum.inl c :: unquoteTokens rest
  | [] => []

/-- Reassemble `unquote` tokens: maximal byte runs are decoded as UTF-8. Each
step consumes at least one token, so the token count is enough fuel. -/
def unquoteJoinFuel : Nat → List (Char ⊕ Nat) → List Char
  | _, [] => []
  | 0, _ => []
  | fuel + 1, Sum.inl c :: rest => c :: unquoteJoinFuel fuel rest
  | fuel + 1, Sum.inr b :: rest =>
    let run := rest.takeWhile (·.isRight)
    let bytes := run.map (fun t => t.getRight?.getD 0)
    utf8Decode (b :: bytes) ++ unquoteJoinFuel fuel (rest.drop run.length)

def unquote (s : String) : String :=
  String.mk (unquoteJoinFuel (unquoteTokens s.data).length (unquoteTokens s.data))

/-! ## `pathlib.PurePosixPath(...).name`

Paths are split on `/`; empty components and `.` are dropped; the name is the
last remaining component (or the empty string). -/

def pathParts (s : String) : List String :=
  ((splitListChar '/' s.data).map String.mk).filter (fun p => p ≠ "" && p ≠ ".")

def pathName (s : String) : String :=
  (pathParts s).getLast?.getD ""

/-- `pathlib.PurePath(...).stem`: the final component without its last suffix
(a dot-suffix only counts when it is not the whole name). -/
def pathStem (s : String) : String :=
  let n := pathName s
  match strFindChar n.data.reverse '.' with
  | none => n
  | some i =>
    if i + 1 = n.length then n  -- the dot is the first character: no suffix
    else String.mk (n.data.take (n.length - 1 - i))

/-! ## `ConfluenceTag` (confluence_renderer.py) -/

inductive ConfluenceTag where
  | mk (name : String) (text : String) (attrib : List (String × String))
       (ns : String) (cdata : Bool) (children : List ConfluenceTag)
  deriving Repr

/-- `ConfluenceTag.add_namespace`. -/
def addNamespace (tag ns : String) : String := ns ++ ":" ++ tag

/-- Lexicographic order on attribute pairs, as Python's `sorted` on tuples of
strings. -/
def attribPairLt (a b : String × String) : Bool :=
  a.1 < b.1 || (a.1 = b.1 && a.2 < b.2)

def insertAttribSorted (x : String × String) :
    List (String × String) → List (String × String)
  | [] => [x]
  | y :: ys => if attribPairLt y x then y :: insertAttribSorted x ys else x :: y :: ys

def sortAttribs (l : List (String × String)) : List (String × String) :=
  l.foldr insertAttribSorted []

/-- `ConfluenceTag.render`: a namespaced element with lexicographically sorted
namespaced attributes, rendered children, then the (optionally CDATA-wrapped)
text, and a trailing newline. -/
def ConfluenceTag.render : ConfluenceTag → String
  | .mk name text attrib ns cdata children =>
    let nn := addNamespace name ns
    let nattribs := attrib.map (fun p => (addNamespace p.1 ns, p.2))
    let attrStr :=
      if nattribs.isEmpty then ""
      else " " ++ String.intercalate " "
        ((sortAttribs nattribs).map (fun p => p.1 ++ "=\"" ++ p.2 ++ "\""))
    let childStr := String.join (children.attach.map (fun c => c.1.render))
    let textStr := if cdata then "<![CDATA[" ++ text ++ "]]>" else text
    "<" ++ nn ++ attrStr ++ ">" ++ childStr ++ textStr ++ "</" ++ nn ++ ">" ++ "\n"
  decreasing_by
    simp_wf
    have h := List.sizeOf_lt_of_mem c.2
    omega

/-- `ConfluenceTag.append`. -/
def ConfluenceTag.appendChild : ConfluenceTag → ConfluenceTag → ConfluenceTag
  | .mk name text attrib ns cdata children, c =>
    .mk name text attrib ns cdata (children ++ [c])

/-! ## The ConfluenceRenderer visitor (confluence_renderer.py)

The renderer's mutable fields (`attachments`, `title`, `relative_links`) are
threaded as explicit state. `uuid.uuid4()` draws are modelled by a supply
function `Nat → String` together with a draw counter in the state, so the
`n`-th relative link of a document gets the token
`"md2cf-internal-link-" ++ supply n`.

The base-class (mistune `HTMLRenderer`) fall-through output for headings,
links, paragraphs and text, which is external to this repository, is modelled
by the `superHeading`, `superLink`, `superParagraph` and `escapeText`
functions below. -/

structure RelativeLink where
  path : String
  fragment : String
  replacement : String
  original : String
  escaped_original : String
  deriving Repr, DecidableEq

structure RendererConfig where
  strip_header : Bool := false
  remove_text_newlines : Bool := false
  enable_relative_links : Bool := false
  deriving Repr, DecidableEq

structure RendererState where
  attachments : List String := []
  title : Option String := none
  relative_links : List RelativeLink := []
  uuidCount : Nat := 0
  deriving Repr, DecidableEq

/-- mistune's HTML text escaping (`&`, `<`, `>`). -/
def escapeText (s : String) : String :=
  pyReplace (pyReplace (pyReplace s "&" "&amp;") "<" "&lt;") ">" "&gt;"

/-- The `escaped_original` field: `&`, `<`, `>`, `"` entity-escaped, in the
order of the source's `.replace` chain. -/
def escapeOriginal (s : String) : String :=
  pyReplace (pyReplace (pyReplace (pyReplace s "&" "&amp;") "<" "&lt;") ">" "&gt;") "\"" "&quot;"

/-- mistune `HTMLRenderer.heading` (external base class), modelled plainly. -/
def superHeading (text : String) (level : Nat) : String :=
  "<h" ++ toString level ++ ">" ++ text ++ "</h" ++ toString level ++ ">\n"

/-- mistune `HTMLRenderer.link` (external base class); URL sanitization of the
base renderer is modelled as the identity (it fixes the characters the
renderer's own logic cares about). -/
def superLink (text url : String) (title : Option String) : String :=
  "<a href=\"" ++ url ++ "\"" ++
    (match title with
     | some t => if t = "" then "" else " title=\"" ++ t ++ "\""
     | none => "") ++
  ">" ++ text ++ "</a>"

/-- mistune `HTMLRenderer.paragraph` (external base class). -/
def superParagraph (text : String) : String := "<p>" ++ text ++ "</p>\n"

/-- `ConfluenceRenderer.heading` (lines 86-93): the first level-1 heading sets
the title; with `strip_header` it is elided from the body. -/
def rendererHeading (cfg : RendererConfig) (st : RendererState)
    (text : String) (level : Nat) : String × RendererState :=
  if st.title = none && level = 1 then
    let st' := { st with title := some text }
    if cfg.strip_header then ("", st') else (superHeading text level, st')
  else (superHeading text level, st)

/-- `ConfluenceRenderer.structured_macro`. -/
def structuredMacro (name : String) : ConfluenceTag :=
  .mk "structured-macro" "" [("name", name)] "ac" false []

/-- `ConfluenceRenderer.parameter`. -/
def parameterTag (name value : String) : ConfluenceTag :=
  .mk "parameter" value [("name", name)] "ac" false []

/-- `ConfluenceRenderer.plain_text_body`. -/
def plainTextBody (text : String) : ConfluenceTag :=
  .mk "plain-text-body" text [] "ac" true []

/-- `ConfluenceRenderer.block_code`. -/
def rendererBlockCode (code : String) (info : Option String) : String :=
  let root := structuredMacro "code"
  let root := match info with
    | some lang => root.appendChild (parameterTag "language" lang)
    | none => root
  let root := root.appendChild (parameterTag "linenumbers" "true")
  let root := root.appendChild (plainTextBody code)
  root.render

/-- `ConfluenceRenderer.block_math`: mathjax-block-macro with the trimmed
expression as literal (CDATA) body. -/
def rendererBlockMath (text : String) : String :=
  ((structuredMacro "mathjax-block-macro").appendChild
    (plainTextBody (pyStrip text))).render

/-- `ConfluenceRenderer.inline_math`: mathjax-inline-macro with the trimmed
expression as the value of the `equation` parameter. -/
def rendererInlineMath (text : String) : String :=
  ((structuredMacro "mathjax-inline-macro").appendChild
    (parameterTag "equation" (pyStrip text))).render

/-- `ConfluenceRenderer.image` (lines 203-223): the branch is decided by
`parsed_source.netloc` alone. -/
def rendererImage (st : RendererState) (text url : String)
    (title : Option String) : String × RendererState :=
  let attributes := [("alt", text)] ++
    (match title with
     | some t => if t = "" then [] else [("title", t)]
     | none => [])
  let parsed := urlparse url
  if parsed.netloc = "" then
    let basename := pathName url
    let urlTag : ConfluenceTag := .mk "attachment" "" [("filename", basename)] "ri" false []
    let root : ConfluenceTag := .mk "image" "" attributes "ac" false [urlTag]
    (root.render, { st with attachments := st.attachments ++ [url] })
  else
    let urlTag : ConfluenceTag := .mk "url" "" [("value", url)] "ri" false []
    let root : ConfluenceTag := .mk "image" "" attributes "ac" false [urlTag]
    (root.render, st)

/-- `ConfluenceRenderer.text` (lines 173-177). -/
def rendererText (cfg : RendererConfig) (text : String) : String :=
  escapeText (if cfg.remove_text_newlines then pyReplace text "\n" " " else text)

def imageExtensions : List String :=
  [".png", ".jpg", ".jpeg", ".gif", ".svg", ".bmp", ".webp"]

def videoExtensions : List String :=
  [".mp4", ".webm", ".avi", ".mov", ".wmv"]

def documentExtensions : List String :=
  [".pdf", ".pptx", ".ppt", ".docx", ".doc", ".xlsx", ".xls",
   ".zip", ".tar", ".gz", ".7z", ".rar",
   ".txt", ".csv", ".json", ".xml"]

def endsWithAny (s : String) (exts : List String) : Bool :=
  exts.any (fun e => pyEndsWith s e)

/-- The internal-link placeholder for the `n`-th uuid draw. -/
def replacementToken (supply : Nat → String) (n : Nat) : String :=
  "md2cf-internal-link-" ++ supply n

/-- `ConfluenceRenderer.link` (lines 108-171): local image/video targets are
embedded via `image`; local document/archive targets become attachment
download links; other local targets become placeholder links when relative
links are enabled; everything else falls through to the base renderer. -/
def rendererLink (cfg : RendererConfig) (supply : Nat → String)
    (st : RendererState) (text url : String) (title : Option String) :
    String × RendererState :=
  let parsed := urlparse url
  let isLocalPath := parsed.scheme = "" && parsed.netloc = "" && parsed.path ≠ ""
  let pathLower := pyLower parsed.path
  if isLocalPath && endsWithAny pathLower (imageExtensions ++ videoExtensions) then
    rendererImage st text url title
  else if isLocalPath && endsWithAny pathLower documentExtensions then
    let basename := pathName (unquote parsed.path)
    let linkBody : ConfluenceTag :=
      .mk "plain-text-link-body" (if text = "" then basename else text) [] "ac" true []
    let attachTag : ConfluenceTag :=
      .mk "attachment" "" [("filename", basename)] "ri" false []
    let linkTag : ConfluenceTag := .mk "link" "" [] "ac" false [attachTag, linkBody]
    (linkTag.render, { st with attachments := st.attachments ++ [unquote parsed.path] })
  else if cfg.enable_relative_links && isLocalPath then
    let replacement := replacementToken supply st.uuidCount
    let rl : RelativeLink :=
      { path := unquote parsed.path, fragment := parsed.fragment,
        replacement := replacement, original := url,
        escaped_original := escapeOriginal url }
    (superLink text replacement title,
     { st with relative_links := st.relative_links ++ [rl],
               uuidCount := st.uuidCount + 1 })
  else
    (superLink text url title, st)

/-! ## Document syntax trees and `parse_page` (document.py, lines 344-366)

The mistune markdown parser is external to this repository; a parsed document
is modelled as a list of block nodes whose inline content is a list of inline
nodes. The `text` argument that mistune passes to `heading` and `link` (the
already-rendered inner content) is carried directly on the node. -/

inductive Inline where
  | text (s : String)
  | link (inner : String) (url : String) (title : Option String)
  | image (alt : String) (url : String) (title : Option String)
  | inlineMath (s : String)
  deriving Repr, DecidableEq

inductive Block where
  | paragraph (inlines : List Inline)
  | heading (level : Nat) (text : String)
  | blockCode (code : String) (info : Option String)
  | blockMath (s : String)
  deriving Repr, DecidableEq

def renderInline (cfg : RendererConfig) (supply : Nat → String)
    (st : RendererState) : Inline → String × RendererState
  | .text s => (rendererText cfg s, st)
  | .link inner url title => rendererLink cfg supply st inner url title
  | .image alt url title => rendererImage st alt url title
  | .inlineMath s => (rendererInlineMath s, st)

def renderInlines (cfg : RendererConfig) (supply : Nat → String)
    (st : RendererState) : List Inline → String × RendererState
  | [] => ("", st)
  | i :: rest =>
    let (s, st') := renderInline cfg supply st i
    let (s2, st'') := renderInlines cfg supply st' rest
    (s ++ s2, st'')

def renderBlock (cfg : RendererConfig) (supply : Nat → String)
    (st : RendererState) : Block → String × RendererState
  | .paragraph ins =>
    let (s, st') := renderInlines cfg supply st ins
    (superParagraph s, st')
  | .heading level text => rendererHeading cfg st text level
  | .blockCode code info => (rendererBlockCode code info, st)
  | .blockMath s => (rendererBlockMath s, st)

def renderBlocks (cfg : RendererConfig) (supply : Nat → String)
    (st : RendererState) : List Block → String × RendererState
  | [] => ("", st)
  | b :: rest =>
    let (s, st') := renderBlock cfg supply st b
    let (s2, st'') := renderBlocks cfg supply st' rest
    (s ++ s2, st'')

/-- The page record built by `parse_page` (title as captured by the renderer,
rendered body, attachments and relative links). -/
structure RPage where
  title : Option String := none
  body : String := ""
  attachments : List String := []
  relative_links : List RelativeLink := []
  deriving Repr, DecidableEq

/-- `parse_page`: run a fresh renderer over the document's block list. -/
def parsePage (cfg : RendererConfig) (supply : Nat → String)
    (blocks : List Block) : RPage :=
  let (body, st) := renderBlocks cfg supply {} blocks
  { title := st.title, body := body, attachments := st.attachments,
    relative_links := st.relative_links }

/-! ## Frontmatter (document.py, lines 369-390) and
`get_page_data_from_lines` (lines 314-341)

`yaml.safe_load` is an external collaborator, modelled by an oracle
`String → YamlRes`. The source catches only `yaml.parser.ParserError`;
other yaml exceptions (for instance `ScannerError`) propagate, which the
oracle signals with `raiseOther`. -/

/-- The yaml values the core inspects: strings, null, lists (for `labels`),
and numbers. -/
inductive YamlVal where
  | vStr (s : String)
  | vNull
  | vList (l : List String)
  | vNat (n : Nat)
  deriving Repr, DecidableEq

/-- Outcome of `yaml.safe_load` on the frontmatter text. -/
inductive YamlRes where
  | dict (m : List (String × YamlVal))
  | nonDict
  | raiseParserError
  | raiseOther
  deriving Repr, DecidableEq

def lookupKey (k : String) (m : List (String × YamlVal)) : Option YamlVal :=
  (m.find? (fun p => p.1 = k)).map (fun p => p.2)

/-- The result of `get_document_frontmatter`: the parsed mapping plus the
`frontmatter_end_line` entry the source stuffs into the same dict (`none`
models the key's absence, i.e. the empty dict result). -/
structure Frontmatter where
  entries : List (String × YamlVal) := []
  frontmatter_end_line : Option Nat := none
  deriving Repr, DecidableEq

/-- `get_document_frontmatter`: a frontmatter block is considered only when
the very first line is exactly `"---\n"`; the enclosed lines up to the first
closing `"---\n"` are parsed; a `ParserError` or a non-mapping result is
swallowed; any other yaml error propagates (`Except.error`). -/
def getDocumentFrontmatter (yamlLoad : String → YamlRes)
    (markdownLines : List String) : Except Unit Frontmatter :=
  let scan : String × Nat :=
    match markdownLines with
    | first :: rest =>
      if first = "---\n" then
        match rest.findIdx? (fun l => l = "---\n") with
        | some i => (String.join (rest.take i), i + 2)
        | none => (String.join rest, 0)
      else ("", 0)
    | [] => ("", 0)
  let frontmatterYaml := scan.1
  let frontmatterEndLine := scan.2
  if frontmatterYaml ≠ "" && frontmatterEndLine ≠ 0 then
    match yamlLoad frontmatterYaml with
    | .dict m => .ok { entries := m, frontmatter_end_line := some frontmatterEndLine }
    | .nonDict => .ok {}
    | .raiseParserError => .ok {}
    | .raiseOther => .error ()
  else
    .ok {}

/-- The page record after `get_page_data_from_lines`: the title may have been
overwritten with an arbitrary yaml value from the frontmatter. -/
structure LPage where
  title : Option YamlVal := none
  body : String := ""
  attachments : List String := []
  relative_links : List RelativeLink := []
  labels : Option (List String) := none
  deriving Repr, DecidableEq

/-- `get_page_data_from_lines`: strip a detected frontmatter block, transpile
the rest (the external markdown parse of the joined lines is the `mdParse`
oracle), then apply frontmatter `title`/`labels`; a non-list `labels` value
is a `TypeError` (`Except.error`). -/
def getPageDataFromLines (mdParse : String → List Block)
    (yamlLoad : String → YamlRes) (supply : Nat → String)
    (cfg : RendererConfig) (markdownLines : List String) : Except Unit LPage := do
  let fm ← getDocumentFrontmatter yamlLoad markdownLines
  let lines :=
    match fm.frontmatter_end_line with
    | some e => markdownLines.drop e
    | none => markdownLines
  let page := parsePage cfg supply (mdParse (String.join lines))
  let title : Option YamlVal :=
    match lookupKey "title" fm.entries with
    | some v => some v
    | none => page.title.map .vStr
  let labels : Option (List String) ←
    match lookupKey "labels" fm.entries with
    | some (.vList l) => pure (some l)
    | some _ => .error ()
    | none => pure none
  return { title := title, body := page.body, attachments := page.attachments,
           relative_links := page.relative_links, labels := labels }

/-! ## The directory tree assembler (`get_pages_from_directory`,
document.py lines 84-278)

The filesystem walk is consumed exactly as `os.walk` delivers it: a list of
per-directory records (path, files, `.pages` data), in `os.walk`'s top-down
order. Directory paths are lists of segment names relative to the walk root
(the root itself is `[]`), which models `Path.resolve` as the identity on
canonical paths. A directory's `dirnames` listing is recovered as the names
of the records one level below it, and — like the source, which never prunes
the walk — ignored directories are skipped but their descendants are still
visited.

External collaborators as oracles:
- `ign` — the gitignore predicate `GitRepository.is_ignored` (a run with
  `use_gitignore=False` is the constantly-false predicate);
- `pageOf` — `get_page_data_from_file_path` for a markdown file path: its
  result always has a truthy title (the file-stem fallback), but the model
  keeps the source's own truthiness checks.

A `.pages` per-folder metadata file is modelled by `pagesTitle`:
`some t?` means the file exists and parses to a mapping with (`t? = some _`)
or without (`t? = none`) a `title` key.

Dictionary `KeyError` (looking up a parent directory that was skipped as
ignored and hence never entered `folder_data`) is modelled by `Option`:
`none` is the crashed run, which returns no page sequence. -/

/-- Result of `get_page_data_from_file_path` (oracle codomain). -/
structure DocPage where
  title : String := ""
  body : String := ""
  attachments : List String := []
  relative_links : List RelativeLink := []
  deriving Repr, DecidableEq

/-- A Page record as emitted by the directory tree assembler. -/
structure DirPage where
  title : Option String := none
  parent_title : Option String := none
  body : String := ""
  file_path : Option (List String) := none
  attachments : List String := []
  relative_links : List RelativeLink := []
  deriving Repr, DecidableEq

/-- One `os.walk` record: a directory's path, its plain files, and its
parsed `.pages` metadata (if that file exists). -/
structure FsEntry where
  path : List String := []
  files : List String := []
  pagesTitle : Option (Option String) := none
  deriving Repr, DecidableEq

/-- The `dirnames` listing of the directory at `p`: the names of the walked
directories directly below it, in walk order. -/
def childNames (fs : List FsEntry) (p : List String) : List String :=
  fs.filterMap (fun e =>
    if e.path ≠ [] && e.path.dropLast = p then e.path.getLast? else none)

structure DirFlags where
  collapse_single_pages : Bool := false
  skip_empty : Bool := false
  collapse_empty : Bool := false
  beautify_folders : Bool := false
  use_pages_file : Bool := false
  deriving Repr, DecidableEq

/-- First pass (lines 121-136): collect the markdown files used as folder
content — for every non-ignored directory, each non-ignored subdirectory `S`
with an existing, non-ignored sibling file `S.md`. -/
def contentFilesOf (ign : List String → Bool) (fs : List FsEntry) :
    List (List String) :=
  (fs.map (fun e =>
    if ign e.path then []
    else (childNames fs e.path).filterMap (fun sd =>
      if ign (e.path ++ [sd]) then none
      else if e.files.contains (sd ++ ".md") && !ign (e.path ++ [sd ++ ".md"]) then
        some (e.path ++ [sd ++ ".md"])
      else none))).flatten

/-- The per-directory record held in `folder_data`. -/
structure FolderEntry where
  n_files : Nat := 0
  content_file : Option (List String) := none
  subdirNames : List String := []
  title : Option String := none
  deriving Repr, DecidableEq

def fdFind (fd : List (List String × FolderEntry)) (p : List String) :
    Option FolderEntry :=
  (fd.find? (fun q => q.1 = p)).map (fun q => q.2)

def fdSet (fd : List (List String × FolderEntry)) (p : List String)
    (e : FolderEntry) : List (List String × FolderEntry) :=
  if (fd.find? (fun q => q.1 = p)).isSome then
    fd.map (fun q => if q.1 = p then (p, e) else q)
  else fd ++ [(p, e)]

def fdSetTitle (fd : List (List String × FolderEntry)) (p : List String)
    (t : Option String) : List (List String × FolderEntry) :=
  fd.map (fun q => if q.1 = p then (q.1, { q.2 with title := t }) else q)

/-- The proper ancestors of a path, closest first (`Path.parents` restricted
to the walk root's subtree; ancestors above the root are never in
`folder_data` and are skipped by the loop anyway). -/
def parentsOf (p : List String) : List (List String) :=
  ((List.range p.length).map (fun k => p.take k)).reverse

/-- `find_non_empty_parent_path` (lines 75-81); the default result
`file_path.absolute()` is the walk root `[]`. -/
def findNonEmptyParentPath (fd : List (List String × FolderEntry))
    (p : List String) : List String :=
  match (parentsOf p).find? (fun par =>
    match fdFind fd par with
    | some e => e.n_files ≠ 0
    | none => false) with
  | some par => par
  | none => []

/-- `str(current_path.relative_to(folder_parent_path))` for an ancestor
prefix. -/
def relToString (p base : List String) : String :=
  String.intercalate "/" (p.drop base.length)

/-- Python `str.capitalize`: first character upper-cased, the rest
lower-cased. -/
def pyCapitalize (s : String) : String :=
  match s.data with
  | [] => ""
  | c :: cs => String.mk (c.toUpper :: cs.map Char.toLower)

/-- The `beautify_folders` title (lines 200-205). -/
def beautifyName (name : String) : String :=
  pyCapitalize (pyReplace (pyReplace name "-" " ") "_" " ")

structure WalkState where
  folder_data : List (List String × FolderEntry) := []
  pages : List DirPage := []
  deriving Repr, DecidableEq

/-- One iteration of the document loop (lines 254-276): emit the page for a
markdown file unless it is consumed as folder content, and — in the
single-collapsed-document case — replace the folder's recorded title with
the document's title. -/
def docStep (flags : DirFlags) (pageOf : List String → DocPage)
    (contentFiles : List (List String)) (path : List String)
    (folderContentFile : Option (List String)) (parentPageTitle : Option String)
    (mdLen : Nat) (acc : List (List String × FolderEntry) × List DirPage)
    (f : List String) : List (List String × FolderEntry) × List DirPage :=
  if folderContentFile = some f then acc
  else if contentFiles.contains f then acc
  else
    let pp := pageOf f
    let page : DirPage :=
      { title := some pp.title, parent_title := parentPageTitle,
        body := pp.body, file_path := some f,
        attachments := pp.attachments, relative_links := pp.relative_links }
    let fd' :=
      if mdLen = 1 && flags.collapse_single_pages then
        fdSetTitle acc.1 path (some pp.title)
      else acc.1
    (fd', acc.2 ++ [page])

/-- Parent and title resolution (lines 172-206): yields
`(folder_parent_title, parent_page_title, folder title-to-record)`, or `none`
for the `KeyError` crash on `folder_data[folder_parent_path]["title"]`. -/
def resolveParent (flags : DirFlags) (fd0 : List (List String × FolderEntry))
    (path : List String) (collapseNow : Bool) :
    Option (Option String × Option String × Option String) :=
  if path = [] then some (none, none, none)
  else
    let folderParentPath :=
      if flags.skip_empty || flags.collapse_empty then
        findNonEmptyParentPath fd0 path
      else path.dropLast
    match fdFind fd0 folderParentPath with
    | none => none
    | some pe =>
      let folderParentTitle := pe.title
      let name := path.getLast?.getD ""
      if collapseNow then
        some (folderParentTitle, folderParentTitle, none)
      else
        let ppt := if flags.collapse_empty then relToString path folderParentPath else name
        let ppt := if flags.beautify_folders then beautifyName name else ppt
        some (folderParentTitle, some ppt, some ppt)

/-- The `title` read off a directory\x27s parsed `.pages` mapping when
`use_pages_file` is set (lines 207-212). -/
def pagesOverrideOf (flags : DirFlags) (pt : Option (Option String)) :
    Option String :=
  if flags.use_pages_file then
    match pt with
    | some (some t) => some t
    | _ => none
  else none

/-- The non-ignored markdown files of a walked directory (lines 146-153). -/
def mdFilesOf (ign : List String → Bool) (e : FsEntry) : List (List String) :=
  ((e.files.filter (fun f => pyEndsWith f ".md")).map
    (fun f => e.path ++ [f])).filter (fun f => !ign f)

/-- Folder page emission (lines 240-252) followed by the document-page loop
(lines 254-276), from the settled parent/title data. -/
def dirCore (flags : DirFlags) (pageOf : List String → DocPage)
    (contentFiles : List (List String)) (st : WalkState) (path : List String)
    (markdownFiles : List (List String)) (subdirNames : List String)
    (folderContentFile : Option (List String))
    (fd2 : List (List String × FolderEntry))
    (folderParentTitle parentPageTitle folderTitle : Option String)
    (folderBody : String) (folderFilePath : Option (List String))
    (folderAtt : List String) (folderRel : List RelativeLink) : WalkState :=
  let pages1 :=
    if folderTitle.isSome &&
        (decide (markdownFiles ≠ []) ||
         (decide (subdirNames ≠ []) && !flags.skip_empty && !flags.collapse_empty)) then
      st.pages ++ [{ title := folderTitle, parent_title := folderParentTitle,
                     body := folderBody, file_path := folderFilePath,
                     attachments := folderAtt, relative_links := folderRel }]
    else st.pages
  let final := markdownFiles.foldl
    (docStep flags pageOf contentFiles path folderContentFile
      parentPageTitle markdownFiles.length)
    (fd2, pages1)
  { folder_data := final.1, pages := final.2 }

/-- Lines 207-276: `.pages` title override, folder content from the
associated markdown file (lines 216-238), then `dirCore`. -/
def dirFinish (flags : DirFlags) (pageOf : List String → DocPage)
    (contentFiles : List (List String)) (st : WalkState) (e : FsEntry)
    (markdownFiles : List (List String)) (subdirNames : List String)
    (folderContentFile : Option (List String))
    (fd0 : List (List String × FolderEntry))
    (folderParentTitle parentPageTitle0 folderTitle0 : Option String) :
    WalkState :=
  let pagesOverride := pagesOverrideOf flags e.pagesTitle
  let parentPageTitle1 := match pagesOverride with
    | some t => some t
    | none => parentPageTitle0
  let folderTitle1 := match pagesOverride with
    | some t => some t
    | none => folderTitle0
  let fd1 := fdSetTitle fd0 e.path folderTitle1
  match folderContentFile with
  | some f =>
    let cp := pageOf f
    if cp.title ≠ "" then
      dirCore flags pageOf contentFiles st e.path markdownFiles subdirNames
        folderContentFile (fdSetTitle fd1 e.path (some cp.title))
        folderParentTitle (some cp.title) (some cp.title)
        cp.body (some f) cp.attachments cp.relative_links
    else
      dirCore flags pageOf contentFiles st e.path markdownFiles subdirNames
        folderContentFile fd1 folderParentTitle parentPageTitle1 folderTitle1
        cp.body (some f) cp.attachments cp.relative_links
  | none =>
    dirCore flags pageOf contentFiles st e.path markdownFiles subdirNames
      folderContentFile fd1 folderParentTitle parentPageTitle1 folderTitle1
      "" none [] []

/-- The markdown file in the parent directory that is associated with this
folder as its content page (lines 155-160). -/
def folderContentFileOf (contentFiles : List (List String))
    (path : List String) : Option (List String) :=
  if path = [] then none
  else
    let potential := path.dropLast ++ [(path.getLast?.getD "") ++ ".md"]
    if contentFiles.contains potential then some potential else none

/-- The body of the second-pass loop (lines 139-276) for one directory. -/
def dirStep (flags : DirFlags) (pageOf : List String → DocPage)
    (contentFiles : List (List String)) (ign : List String → Bool)
    (fs : List FsEntry) (st : WalkState) (e : FsEntry) : Option WalkState :=
  let path := e.path
  if ign path then some st else
  let markdownFiles := mdFilesOf ign e
  let subdirNames := childNames fs path
  let folderContentFile := folderContentFileOf contentFiles path
  let fd0 := fdSet st.folder_data path
    { n_files := markdownFiles.length, content_file := folderContentFile,
      subdirNames := subdirNames, title := none }
  match resolveParent flags fd0 path
      (markdownFiles.length = 1 && flags.collapse_single_pages) with
  | none => none
  | some (folderParentTitle, parentPageTitle0, folderTitle0) =>
    some (dirFinish flags pageOf contentFiles st e markdownFiles subdirNames
      folderContentFile fd0 folderParentTitle parentPageTitle0 folderTitle0)

/-- The second pass (lines 139-276) over the whole walk listing;
`none` propagates a KeyError crash. -/
def walkList (flags : DirFlags) (pageOf : List String → DocPage)
    (contentFiles : List (List String)) (ign : List String → Bool)
    (fs : List FsEntry) : List FsEntry → WalkState → Option WalkState
  | [], st => some st
  | e :: rest, st =>
    match dirStep flags pageOf contentFiles ign fs st e with
    | none => none
    | some st' => walkList flags pageOf contentFiles ign fs rest st'

/-- `get_pages_from_directory` over the `os.walk` listing `fs`:
`none` models a crashed run (KeyError). -/
def getPagesFromDirectory (flags : DirFlags) (ign : List String → Bool)
    (pageOf : List String → DocPage) (fs : List FsEntry) :
    Option (List DirPage) :=
  let contentFiles := contentFilesOf ign fs
  (walkList flags pageOf contentFiles ign fs fs {}).map (fun st => st.pages)


/-! ## The outline tree assembler (`parse_summary_md` and
`get_pages_from_summary`, document.py lines 393-632)

The regular expressions of `parse_summary_md` are embedded as deterministic
matchers equivalent to `re.match` on single lines (a line holds no interior
newline; `$` matches before one trailing newline). The mutable
list-aliasing stack of the source is modelled by a spine of open entries:
an open entry is attached to its parent when it is closed, which yields the
same forests and the same child order. Path resolution
(`(summary_dir / path).resolve()`) is absorbed into the `fileOf` oracle,
which is keyed by the link's raw path string. -/

def lineIsBlank (l : String) : Bool := pyStrip l = ""

def lineIsSummaryTitle (l : String) : Bool := pyStartsWith (pyStrip l) "# Summary"

/-- `^-{3,}\s*$`. -/
def lineIsSeparator (l : String) : Bool :=
  let d := l.data
  let dashes := d.takeWhile (fun c => c = '-')
  decide (dashes.length ≥ 3) && (d.drop dashes.length).all pyIsSpace

/-- `^#\s+(.+)$`, with the group stripped: the title after `# `. On an
all-whitespace remainder the backtracking regex still matches when at least
two characters follow the `#` (the group is then a whitespace character,
which strips to the empty string). -/
def linePartTitle (l : String) : Option String :=
  match l.data with
  | '#' :: rest =>
    let core := if rest.getLast? = some '\n' then rest.dropLast else rest
    match core with
    | [] => none
    | c :: _ =>
      if pyIsSpace c then
        let ws := core.takeWhile pyIsSpace
        if ws.length = core.length then
          if core.length ≥ 2 then some "" else none
        else some (pyStrip (String.mk (core.drop ws.length)))
      else none
  | _ => none

/-- `^(\s*)[-*]?\s*\[([^\]]+)\]\(([^)]*)\)\s*$`: returns
(indent group, title group, path group). -/
def lineLink (l : String) : Option (String × String × String) :=
  let d := l.data
  let ws1 := d.takeWhile pyIsSpace
  let r1 := d.drop ws1.length
  let r2 := match r1 with
    | c :: rest => if c = '-' || c = '*' then rest else r1
    | [] => r1
  let r3 := r2.dropWhile pyIsSpace
  match r3 with
  | '[' :: r4 =>
    let tit := r4.takeWhile (fun c => c ≠ ']')
    if tit.isEmpty then none
    else
      match r4.drop tit.length with
      | ']' :: '(' :: r5 =>
        let pth := r5.takeWhile (fun c => c ≠ ')')
        match r5.drop pth.length with
        | ')' :: r6 =>
          if r6.all pyIsSpace then some (String.mk ws1, String.mk tit, String.mk pth)
          else none
        | _ => none
      | _ => none
  | _ => none

/-- `line.lstrip().startswith(('-', '*'))`. -/
def lineHasListMarker (l : String) : Bool :=
  match l.data.dropWhile pyIsSpace with
  | c :: _ => c = '-' || c = '*'
  | [] => false

/-- Indent to nesting level: tabs count as four spaces, divided by two
(line 476). -/
def indentLevel (indent : String) : Nat :=
  (pyReplace indent "\t" "    ").length / 2

inductive SummaryItem where
  | mk (title : String) (path : Option String) (is_part : Bool)
       (is_sep : Bool) (children : List SummaryItem)
  deriving Repr

def SummaryItem.title : SummaryItem → String
  | .mk t _ _ _ _ => t

def SummaryItem.path : SummaryItem → Option String
  | .mk _ p _ _ _ => p

def SummaryItem.isPart : SummaryItem → Bool
  | .mk _ _ b _ _ => b

def SummaryItem.isSep : SummaryItem → Bool
  | .mk _ _ _ b _ => b

def SummaryItem.children : SummaryItem → List SummaryItem
  | .mk _ _ _ _ c => c

def SummaryItem.addChild : SummaryItem → SummaryItem → SummaryItem
  | .mk t p b s c, child => .mk t p b s (c ++ [child])

/-- Parser state: completed top-level items, the current part section (if
any), and the spine of open nested entries (innermost first) with their
indent levels. -/
structure ParseState where
  done : List SummaryItem := []
  part : Option SummaryItem := none
  spine : List (Nat × SummaryItem) := []

/-- Close the innermost open entry, attaching it to its parent (the next
spine entry, else the current part, else the top level). -/
def closeSpineOnce (st : ParseState) : ParseState :=
  match st.spine with
  | [] => st
  | (_, it) :: rest =>
    match rest with
    | (l2, p) :: rest2 => { st with spine := (l2, p.addChild it) :: rest2 }
    | [] =>
      match st.part with
      | some p => { st with part := some (p.addChild it), spine := [] }
      | none => { st with done := st.done ++ [it], spine := [] }

theorem closeSpineOnce_len (st : ParseState) (h : st.spine ≠ []) :
    (closeSpineOnce st).spine.length < st.spine.length := by
  obtain ⟨done, part, spine⟩ := st
  match spine with
  | [] => simp at h
  | (l, it) :: rest =>
    match rest with
    | [] => cases part <;> simp [closeSpineOnce]
    | (l2, p) :: rest2 => simp [closeSpineOnce]

/-- `while len(stack) > 1 and stack[-1][1] >= indent_level: stack.pop()`;
each pop shortens the spine, so the spine length is enough fuel. -/
def closeSpineFromFuel (level : Nat) : Nat → ParseState → ParseState
  | 0, st => st
  | fuel + 1, st =>
    match st.spine with
    | [] => st
    | (l, _) :: _ =>
      if l ≥ level then closeSpineFromFuel level fuel (closeSpineOnce st) else st

def closeSpineFrom (level : Nat) (st : ParseState) : ParseState :=
  closeSpineFromFuel level st.spine.length st

def closeSpineAllFuel : Nat → ParseState → ParseState
  | 0, st => st
  | fuel + 1, st =>
    match st.spine with
    | [] => st
    | _ :: _ => closeSpineAllFuel fuel (closeSpineOnce st)

def closeSpineAll (st : ParseState) : ParseState :=
  closeSpineAllFuel st.spine.length st

/-- Fold the current part section into the completed items. -/
def closePart (st : ParseState) : ParseState :=
  let st := closeSpineAll st
  match st.part with
  | some p => { done := st.done ++ [p], part := none, spine := [] }
  | none => st

/-- Insert a numbered entry at `level`: close open entries at a level `≥`
the new one, then open the entry (lines 488-501). -/
def pushEntry (level : Nat) (item : SummaryItem) (st : ParseState) : ParseState :=
  let st := closeSpineFrom level st
  { st with spine := (level, item) :: st.spine }

/-- One line of the `parse_summary_md` loop (lines 441-509). -/
def summaryLineStep (st : ParseState) (line : String) : ParseState :=
  if lineIsBlank line then st
  else if lineIsSummaryTitle line then st
  else if lineIsSeparator line then st
  else
    match linePartTitle line with
    | some t => { closePart st with part := some (.mk t none true false []) }
    | none =>
      match lineLink line with
      | some (indent, title, pathStr) =>
        let level := indentLevel indent
        let fp : Option String := if pathStr = "" then none else some pathStr
        let item : SummaryItem := .mk title fp false false []
        if lineHasListMarker line then pushEntry level item st
        else
          let st := closePart st
          { st with done := st.done ++ [item], part := none, spine := [] }
      | none => st

/-- `parse_summary_md` over the outline file's lines. -/
def parseSummaryMd (lines : List String) : List SummaryItem :=
  (closePart (lines.foldl summaryLineStep {})).done

/-- `generate_toc_for_item` (lines 538-552), fuel-driven over the nested
children lists (`sizeOf` of the item bounds the recursion depth and width). -/
def generateTocLines (fuel : Nat) (lvl : Nat) (items : List SummaryItem) :
    List String :=
  match fuel, items with
  | _, [] => []
  | 0, _ :: _ => []
  | fuel + 1, c :: cs =>
    let line := String.mk (List.replicate (2 * lvl) ' ') ++ "- " ++ c.title
    (if c.children.isEmpty then [line]
     else [line, String.intercalate "\n" (generateTocLines fuel (lvl + 1) c.children)]) ++
      generateTocLines fuel lvl cs

def generateTocItem (fuel : Nat) (it : SummaryItem) : String :=
  String.intercalate "\n" (generateTocLines fuel 0 it.children)

/-- A Page record emitted by `get_pages_from_summary` (the title is always a
string there). -/
structure SumPage where
  title : String := ""
  parent_title : Option String := none
  body : String := ""
  file_path : Option String := none
  attachments : List String := []
  relative_links : List RelativeLink := []
  deriving Repr, DecidableEq

/-- The external collaborators of `get_pages_from_summary`:
`summarySelf` is `get_page_data_from_file_path(summary_path)`;
`fileOf p` is that same call for an outline entry's path when the file
exists (`none` = missing file, a draft);
`renderMd` is `parse_page([...]).body` on generated TOC markdown. -/
structure SummaryCtx where
  summaryPath : String := "SUMMARY.md"
  summarySelf : DocPage := {}
  fileOf : String → Option DocPage := fun _ => none
  renderMd : String → String := fun _ => ""

/-- The per-item computation of `process_item` (lines 560-610): the page's
body, file path, attachments, relative links and final title. `useSummary`
is true exactly for the distinguished first part-title item without a path
(the source's object-identity check against `summary_page_item`). -/
def processItemData (ctx : SummaryCtx) (fuel : Nat) (useSummary : Bool) (item : SummaryItem) :
    String × Option String × List String × List RelativeLink × String :=
  match item with
  | .mk ititle ipath ipart _ children =>
    if useSummary then
      let cp := ctx.summarySelf
      (cp.body, some ctx.summaryPath, cp.attachments, cp.relative_links,
       if cp.title ≠ "" then cp.title else ititle)
    else
      match ipath with
      | some p =>
        match ctx.fileOf p with
        | some cp =>
          (cp.body, some p, cp.attachments, cp.relative_links,
           if cp.title ≠ "" then cp.title else ititle)
        | none =>
          -- path present but missing on disk: `is_part_title or not path`
          if ipart then
            (if children.isEmpty then "" else ctx.renderMd (generateTocItem fuel item),
             none, [], [], ititle)
          else ("", none, [], [], ititle)
      | none =>
        (if children.isEmpty then "" else ctx.renderMd (generateTocItem fuel item),
         none, [], [], ititle)

/-- The recursion of `process_item` (lines 554-624) as a fuel-driven
worklist in pre-order: each entry carries its `parent_title` and the
`useSummary` flag (false for all recursive calls). -/
def processFuel (ctx : SummaryCtx) :
    Nat → List (Option String × Bool × SummaryItem) → List SumPage
  | _, [] => []
  | 0, _ :: _ => []
  | fuel + 1, (parentTitle, useSummary, item) :: rest =>
    if item.isSep then processFuel ctx fuel rest
    else
      match processItemData ctx fuel useSummary item with
      | (body, fpath, att, rel, pageTitle) =>
        { title := pageTitle, parent_title := parentTitle, body := body,
          file_path := fpath, attachments := att, relative_links := rel } ::
        processFuel ctx fuel
          (item.children.map (fun c => (some pageTitle, false, c)) ++ rest)

/-- `get_pages_from_summary` (lines 514-632). -/
def getPagesFromSummary (ctx : SummaryCtx) (lines : List String) : List SumPage :=
  let items := parseSummaryMd lines
  match items with
  | [] => []
  | it :: rest =>
    let firstIsSummary := it.isPart && it.path.isNone
    processFuel ctx lines.length
      ((none, firstIsSummary, it) :: rest.map (fun r => (none, false, r)))

/-- The first level-1 heading's text in document order. -/
def firstH1Title : List Block → Option String
  | [] => none
  | b :: rest =>
    match b with
    | .heading l t => if l = 1 then some t else firstH1Title rest
    | _ => firstH1Title rest

/-- Spec-side reference for C10 (modelled from the claim's words): render
every block through the visitor, but decide heading elision purely by "is
this the first level-1 heading" — the first level-1 heading contributes
nothing, every other heading is emitted via the base renderer. -/
def renderBlocksSpecStrip (cfg : RendererConfig) (supply : Nat → String)
    (st : RendererState) (seen : Bool) : List Block → String
  | [] => ""
  | b :: rest =>
    let (s, st') := renderBlock cfg supply st b
    match b with
    | .heading l t =>
      if l = 1 then
        if seen then superHeading t 1 ++ renderBlocksSpecStrip cfg supply st' true rest
        else renderBlocksSpecStrip cfg supply st' true rest
      else superHeading t l ++ renderBlocksSpecStrip cfg supply st' seen rest
    | _ => s ++ renderBlocksSpecStrip cfg supply st' seen rest

/-- C9 counterexample: pyyaml raises errors other than
`yaml.parser.ParserError` on enclosed text that fails to parse — for
instance `a\nb: c` raises `yaml.scanner.ScannerError` (`mapping values are
not allowed here`) — and the source's `except ParserError` does not catch
them, so the failure propagates instead of being swallowed as
"no frontmatter". The oracle below models `yaml.safe_load` on that input. -/
theorem c9_counterexample :
    getDocumentFrontmatter
      (fun s => if s = "a\nb: c\n" then .raiseOther else .nonDict)
      ["---\n", "a\n", "b: c\n", "---\n", "body\n"] = .error () := by
  decide

/-- The C2 invariant over (title, parent_title) pairs: every entry's parent
title is null or is the title of another entry of the sequence. -/
def pageLinks (l : List (Option String × Option String)) : Prop :=
  ∀ i : Fin l.length, (l.get i).2 = none ∨
    ∃ j : Fin l.length, j ≠ i ∧ (l.get j).1 = (l.get i).2

instance (l : List (Option String × Option String)) : Decidable (pageLinks l) := by
  unfold pageLinks
  infer_instance

def dirPairs (pages : List DirPage) : List (Option String × Option String) :=
  pages.map (fun p => (p.title, p.parent_title))

def sumPairs (pages : List SumPage) : List (Option String × Option String) :=
  pages.map (fun p => (some p.title, p.parent_title))

/-- Every entry's parent title is null or the title of an earlier entry. -/
def linkedPrefix (l : List (Option String × Option String)) : Prop :=
  ∀ i : Fin l.length, (l.get i).2 = none ∨
    ∃ j : Fin l.length, j.val < i.val ∧ (l.get j).1 = (l.get i).2

/-- A title is backed: some emitted page carries it. -/
def Backed (pages : List DirPage) (t : String) : Prop :=
  ∃ pg ∈ pages, pg.title = some t

/-- The backing obligations attached to a `folder_data` entry's title: it
must name an emitted page whenever the entry can be referenced as a parent —
through a non-empty folder (`find_non_empty_parent_path`), through the plain
parent when the empty-folder flags are off, or as the walk root default. -/
def fdClauses (flags : DirFlags) (fs : List FsEntry) (pages : List DirPage)
    (p : List String) (ent : FolderEntry) : Prop :=
  ∀ t, ent.title = some t →
    ((ent.n_files ≠ 0 → Backed pages t) ∧
     (flags.skip_empty = false → flags.collapse_empty = false →
        childNames fs p ≠ [] → Backed pages t) ∧
     ((flags.skip_empty = true ∨ flags.collapse_empty = true) → p = [] →
        Backed pages t))

/-- The walk invariant: emitted pages are parent-linked to earlier pages,
and every titled `folder_data` entry satisfies its backing obligations. -/
def StInv (flags : DirFlags) (fs : List FsEntry)
    (fd : List (List String × FolderEntry)) (pages : List DirPage) : Prop :=
  linkedPrefix (dirPairs pages) ∧
  ∀ p ent, fdFind fd p = some ent → fdClauses flags fs pages p ent

/-- Parent-title candidates are null or backed. -/
def PptOk (pages : List DirPage) (ppt : Option String) : Prop :=
  ppt = none ∨ ∃ t, ppt = some t ∧ Backed pages t

/-- The proviso of the amended claim: when `use_pages_file` is set together
with `skip_empty` or `collapse_empty`, a walk-root `.pages` file that
declares a title must be accompanied by at least one non-ignored markdown
file in the root directory. -/
def RootPagesOk (flags : DirFlags) (ign : List String → Bool)
    (fs : List FsEntry) : Prop :=
  flags.use_pages_file = true →
  (flags.skip_empty = true ∨ flags.collapse_empty = true) →
  ∀ e ∈ fs, e.path = [] →
    ∀ t, e.pagesTitle = some (some t) → mdFilesOf ign e ≠ []

def SummaryItem.addChildren : SummaryItem → List SummaryItem → SummaryItem
  | .mk t p b sep c, kids => .mk t p b sep (c ++ kids)

/-- Spec-side forest builder following the claim\x27s words: each entry
adopts as its subtree the maximal run of following entries at strictly
deeper levels — equivalently, every entry becomes a child of the nearest
preceding entry at a shallower level. -/
def buildForest : List (Nat × SummaryItem) → List SummaryItem
  | [] => []
  | (l, it) :: rest =>
    it.addChildren (buildForest (rest.takeWhile (fun e => l < e.1))) ::
      buildForest (rest.dropWhile (fun e => l < e.1))
termination_by ws => ws.length
decreasing_by
  · simp only [List.length_cons]
    exact Nat.lt_succ_of_le (List.IsPrefix.length_le (List.takeWhile_prefix _))
  · simp only [List.length_cons]
    exact Nat.lt_succ_of_le (List.IsSuffix.length_le (List.dropWhile_suffix _))

/-- Spec-side indent weight: a tab counts four spaces, anything else one. -/
def indentWeight : List Char → Nat
  | [] => 0
  | c :: cs => (if c = '\t' then 4 else 1) + indentWeight cs

/-- A body text as alternation of token-free segments and the drawn
placeholder tokens: `interleave [s0, s1, ..., sn] [t1, ..., tn] =
s0 ++ t1 ++ s1 ++ ... ++ tn ++ sn`. -/
def interleave : List String → List String → String
  | [], _ => ""
  | s :: _, [] => s
  | s :: ss, t :: ts => s ++ t ++ interleave ss ts

/-- Merge two segmentations across a concatenation boundary. -/
def joinSegs (s1 s2 : List String) : List String :=
  s1.dropLast ++ ((s1.getLast?.getD "" ++ s2.head?.getD "") :: s2.tail)

/-- The condition under which `link` records a relative link. -/
def isRelLink (cfg : RendererConfig) (url : String) : Bool :=
  let parsed := urlparse url
  let isLocalPath := parsed.scheme = "" && parsed.netloc = "" && parsed.path ≠ ""
  let pathLower := pyLower parsed.path
  cfg.enable_relative_links && isLocalPath &&
    !(endsWithAny pathLower (imageExtensions ++ videoExtensions)) &&
    !(endsWithAny pathLower documentExtensions)

def inlineRelCount (cfg : RendererConfig) : Inline → Nat
  | .link _ url _ => if isRelLink cfg url then 1 else 0
  | _ => 0

def inlinesRelCount (cfg : RendererConfig) (l : List Inline) : Nat :=
  (l.map (inlineRelCount cfg)).sum

def blockRelCount (cfg : RendererConfig) : Block → Nat
  | .paragraph ins => inlinesRelCount cfg ins
  | _ => 0

def blocksRelCount (cfg : RendererConfig) (bs : List Block) : Nat :=
  (bs.map (blockRelCount cfg)).sum

/-- A render step's relative-link bookkeeping: the records appended, their
consecutively-drawn replacement tokens, and the output decomposed around
them. -/
def RelDecomp (supply : Nat → String) (st st' : RendererState)
    (out : String) (n : Nat) : Prop :=
  ∃ recs segs,
    st'.relative_links = st.relative_links ++ recs ∧
    recs.length = n ∧
    st'.uuidCount = st.uuidCount + n ∧
    recs.map (fun r => r.replacement) =
      (List.range n).map (fun k => replacementToken supply (st.uuidCount + k)) ∧
    segs.length = n + 1 ∧
    out = interleave segs (recs.map (fun r => r.replacement))

/-- Number of positions of `s` at which `pat` occurs as a substring. -/
def countOccur (pat s : String) : Nat :=
  ((List.range s.data.length).filter
    (fun k => pat.data.isPrefixOf (s.data.drop k))).length

/-! # Theorems

Helper lemmas shared by several claims, then one theorem per claim. -/

/-- Evaluation form of `ConfluenceTag.render` (childrenmapped plainly). -/
theorem render_mk (name text : String) (attrib : List (String × String)) (ns : String)
    (cdata : Bool) (children : List ConfluenceTag) :
    (ConfluenceTag.mk name text attrib ns cdata children).render =
      (let nn := addNamespace name ns
       let nattribs := attrib.map (fun p => (addNamespace p.1 ns, p.2))
       let attrStr :=
         if nattribs.isEmpty then ""
         else " " ++ String.intercalate " "
           ((sortAttribs nattribs).map (fun p => p.1 ++ "=\"" ++ p.2 ++ "\""))
       let childStr := String.join (children.map ConfluenceTag.render)
       let textStr := if cdata then "<![CDATA[" ++ text ++ "]]>" else text
       "<" ++ nn ++ attrStr ++ ">" ++ childStr ++ textStr ++ "</" ++ nn ++ ">" ++ "\n") := by
  rw [ConfluenceTag.render]
  simp [List.attach_map_coe]

theorem renderInline_title (cfg : RendererConfig) (supply : Nat → String)
    (st : RendererState) (i : Inline) :
    ((renderInline cfg supply st i).2).title = st.title := by
  cases i with
  | text s => rfl
  | inlineMath s => rfl
  | image a u t =>
    simp only [renderInline, rendererImage]
    split <;> rfl
  | link inner u t =>
    simp only [renderInline, rendererLink, rendererImage]
    repeat' split
    all_goals rfl

theorem renderInlines_title (cfg : RendererConfig) (supply : Nat → String) :
    ∀ (l : List Inline) (st : RendererState),
      ((renderInlines cfg supply st l).2).title = st.title := by
  intro l
  induction l with
  | nil => intro st; rfl
  | cons i rest ih =>
    intro st
    simp only [renderInlines]
    rw [ih]
    exact renderInline_title cfg supply st i

theorem renderBlocks_title_some (cfg : RendererConfig) (supply : Nat → String) :
    ∀ (blocks : List Block) (st : RendererState) (t : String),
      st.title = some t → ((renderBlocks cfg supply st blocks).2).title = some t := by
  intro blocks
  induction blocks with
  | nil => intro st t h; simpa [renderBlocks]
  | cons b rest ih =>
    intro st t h
    simp only [renderBlocks]
    cases b with
    | paragraph ins =>
      apply ih
      rw [renderBlock, renderInlines_title]
      exact h
    | heading level text =>
      apply ih
      simp [renderBlock, rendererHeading, h]
    | blockCode c i => exact ih _ t h
    | blockMath s => exact ih _ t h

theorem renderBlocks_title_none (cfg : RendererConfig) (supply : Nat → String) :
    ∀ (blocks : List Block) (st : RendererState),
      st.title = none →
      ((renderBlocks cfg supply st blocks).2).title = firstH1Title blocks := by
  intro blocks
  induction blocks with
  | nil => intro st h; simpa [renderBlocks, firstH1Title]
  | cons b rest ih =>
    intro st h
    simp only [renderBlocks]
    cases b with
    | paragraph ins =>
      simp only [firstH1Title]
      apply ih
      rw [renderBlock, renderInlines_title]
      exact h
    | heading level text =>
      by_cases hl : level = 1
      · subst hl
        simp only [firstH1Title, if_pos rfl]
        apply renderBlocks_title_some
        simp only [renderBlock, rendererHeading, h]
        cases cfg.strip_header <;> simp
      · simp only [firstH1Title, if_neg hl]
        apply ih
        simp [renderBlock, rendererHeading, h, hl]
    | blockCode c i =>
      simp only [firstH1Title]
      exact ih _ h
    | blockMath s =>
      simp only [firstH1Title]
      exact ih _ h

/-- `parse_page` captures exactly the first level-1 heading as the title. -/
theorem parsePage_title (cfg : RendererConfig) (supply : Nat → String)
    (blocks : List Block) :
    (parsePage cfg supply blocks).title = firstH1Title blocks := by
  simp only [parsePage]
  exact renderBlocks_title_none cfg supply blocks {} rfl

/-- C6: transpiling a block-math node and an inline-math node for the same
expression ` x^2 ` (whitespace shows the trimming) produces structurally
different macros — `mathjax-block-macro` with the trimmed expression `x^2`
as literal CDATA body versus `mathjax-inline-macro` with it as the value of
the named `equation` parameter — and the two macro names differ. -/
theorem c6_math_macro_distinction :
    (parsePage {} (fun _ => "") [Block.blockMath " x^2 "]).body =
      "<ac:structured-macro ac:name=\"mathjax-block-macro\"><ac:plain-text-body><![CDATA[x^2]]></ac:plain-text-body>\n</ac:structured-macro>\n" ∧
    (parsePage {} (fun _ => "") [Block.paragraph [Inline.inlineMath " x^2 "]]).body =
      "<p><ac:structured-macro ac:name=\"mathjax-inline-macro\"><ac:parameter ac:name=\"equation\">x^2</ac:parameter>\n</ac:structured-macro>\n</p>\n" ∧
    "mathjax-block-macro" ≠ "mathjax-inline-macro" ∧
    pyStrip " x^2 " = "x^2" := by
  refine ⟨?_, ?_, by decide, by decide⟩ <;>
  · simp [parsePage, renderBlocks, renderBlock, renderInlines, renderInline,
          rendererBlockMath, rendererInlineMath, structuredMacro, parameterTag,
          plainTextBody, ConfluenceTag.appendChild, render_mk, addNamespace,
          sortAttribs, insertAttribSorted, superParagraph, pyStrip, pyIsSpace]
    decide

/-- C5 counterexample: the image source `file:diagram.png` has a scheme (so
the claim calls it remote and requires a direct URL reference with nothing
appended), but the source's `image` tests only `netloc`, treats it as local,
appends it to `attachments` and renders an attachment reference. -/
theorem c5_counterexample :
    (urlparse "file:diagram.png").scheme = "file" ∧
    (rendererImage {} "alt" "file:diagram.png" none).2.attachments
      = ["file:diagram.png"] ∧
    (rendererImage {} "alt" "file:diagram.png" none).1 =
      "<ac:image ac:alt=\"alt\"><ri:attachment ri:filename=\"file:diagram.png\"></ri:attachment>\n</ac:image>\n" := by
  have h : (urlparse "file:diagram.png").netloc = "" := by decide
  refine ⟨by decide, by decide, ?_⟩
  simp [rendererImage, h, render_mk, addNamespace, sortAttribs, insertAttribSorted]
  decide

/-- C5 (amended): the image visitor classifies by host alone — a source with
an empty `netloc` (even one with a scheme) is embedded as an attachment
reference by its filename and appended to `attachments`; a source with a
host becomes a direct URL reference and appends nothing. -/
theorem c5_image_locality (st : RendererState) (alt url : String)
    (title : Option String) :
    ((urlparse url).netloc = "" →
      (rendererImage st alt url title).2 =
        { st with attachments := st.attachments ++ [url] } ∧
      (rendererImage st alt url title).1 =
        (ConfluenceTag.mk "image" ""
          ([("alt", alt)] ++ (match title with
            | some t => if t = "" then [] else [("title", t)]
            | none => [])) "ac" false
          [ConfluenceTag.mk "attachment" "" [("filename", pathName url)] "ri" false []]).render) ∧
    ((urlparse url).netloc ≠ "" →
      (rendererImage st alt url title).2 = st ∧
      (rendererImage st alt url title).1 =
        (ConfluenceTag.mk "image" ""
          ([("alt", alt)] ++ (match title with
            | some t => if t = "" then [] else [("title", t)]
            | none => [])) "ac" false
          [ConfluenceTag.mk "url" "" [("value", url)] "ri" false []]).render) := by
  constructor
  · intro h
    simp [rendererImage, h]
  · intro h
    simp [rendererImage, h]

/-- Witness for `c5_image_locality` at the two concrete sources
`images/pic.png` (no host: appended) and `https://h/pic.png` (host: not
appended). -/
theorem c5_image_locality_witness :
    (rendererImage {} "a" "images/pic.png" none).2 =
      { attachments := ["images/pic.png"] } ∧
    (rendererImage {} "a" "https://h/pic.png" none).2 = {} := by
  constructor
  · exact ((c5_image_locality {} "a" "images/pic.png" none).1 (by decide)).1
  · exact ((c5_image_locality {} "a" "https://h/pic.png" none).2 (by decide)).1

/-- No recognized document extension is a suffix of a recognized image/video
extension or vice versa, so a path ending in a document extension never takes
the embedded-media branch. -/
theorem docExt_not_imageVideo (s : String)
    (h : endsWithAny (pyLower s) documentExtensions = true) :
    endsWithAny (pyLower s) (imageExtensions ++ videoExtensions) = false := by
  have key : ∀ d ∈ documentExtensions, ∀ e ∈ imageExtensions ++ videoExtensions,
      ¬(d.data <:+ e.data) ∧ ¬(e.data <:+ d.data) := by decide
  by_contra hc
  have h2 : endsWithAny (pyLower s) (imageExtensions ++ videoExtensions) = true := by
    cases hv : endsWithAny (pyLower s) (imageExtensions ++ videoExtensions)
    · exact absurd hv hc
    · rfl
  obtain ⟨d, hd, hds⟩ := List.any_eq_true.mp h
  obtain ⟨e, he, hes⟩ := List.any_eq_true.mp h2
  have hds' : d.data <:+ (pyLower s).data := List.isSuffixOf_iff_suffix.mp hds
  have hes' : e.data <:+ (pyLower s).data := List.isSuffixOf_iff_suffix.mp hes
  rcases le_total d.data.length e.data.length with hle | hle
  · exact (key d hd e he).1 (List.suffix_of_suffix_length_le hds' hes' hle)
  · exact (key d hd e he).2 (List.suffix_of_suffix_length_le hes' hds' hle)

/-- C7: for every link whose target is local (no scheme, no host, non-empty
path) and whose lowered path ends in a recognized document extension, the
`link` visitor appends exactly one entry — the URL-decoded path — to
`attachments`, and renders a download-link structure referencing the
attachment by the decoded path's basename, with the link's text as visible
text, or the basename when the text is empty. -/
theorem c7_attachment_link (cfg : RendererConfig) (supply : Nat → String)
    (st : RendererState) (text url : String) (title : Option String)
    (hscheme : (urlparse url).scheme = "") (hnet : (urlparse url).netloc = "")
    (hpath : (urlparse url).path ≠ "")
    (hdoc : endsWithAny (pyLower (urlparse url).path) documentExtensions = true) :
    (rendererLink cfg supply st text url title).2 =
      { st with attachments := st.attachments ++ [unquote (urlparse url).path] } ∧
    (rendererLink cfg supply st text url title).1 =
      (ConfluenceTag.mk "link" "" [] "ac" false
        [ConfluenceTag.mk "attachment" ""
           [("filename", pathName (unquote (urlparse url).path))] "ri" false [],
         ConfluenceTag.mk "plain-text-link-body"
           (if text = "" then pathName (unquote (urlparse url).path) else text)
           [] "ac" true []]).render := by
  have him := docExt_not_imageVideo _ hdoc
  constructor <;> simp [rendererLink, hscheme, hnet, hpath, hdoc, him]

/-- Witness for `c7_attachment_link`: the link `files/report%20v2.pdf` with
text `click` appends exactly the decoded path `files/report v2.pdf`. -/
theorem c7_attachment_link_witness :
    (rendererLink {} (fun _ => "") {} "click" "files/report%20v2.pdf" none).2 =
      { attachments := ["files/report v2.pdf"] } := by
  have h := c7_attachment_link {} (fun _ => "") {} "click" "files/report%20v2.pdf"
    none (by decide) (by decide) (by decide) (by decide)
  rw [h.1]
  decide

theorem renderBlocks_specStrip (cfg : RendererConfig) (supply : Nat → String)
    (hstrip : cfg.strip_header = true) :
    ∀ (blocks : List Block) (st : RendererState) (seen : Bool),
      (st.title = none ↔ seen = false) →
      (renderBlocks cfg supply st blocks).1 =
        renderBlocksSpecStrip cfg supply st seen blocks := by
  intro blocks
  induction blocks with
  | nil => intro st seen hinv; rfl
  | cons b rest ih =>
    intro st seen hinv
    simp only [renderBlocks, renderBlocksSpecStrip]
    cases b with
    | heading level text =>
      by_cases hl : level = 1
      · subst hl
        cases seen with
        | false =>
          have ht : st.title = none := hinv.mpr rfl
          simp only [renderBlock, rendererHeading, ht, hstrip]
          simp only [decide_True, Bool.and_self, if_true, if_pos trivial]
          rw [ih _ true (by simp)]
          simp
        | true =>
          have ht : st.title ≠ none := by
            intro hn
            exact absurd (hinv.mp hn) (by simp)
          simp only [renderBlock, rendererHeading]
          rw [if_neg (by simp [ht])]
          rw [if_pos trivial, if_pos trivial]
          rw [ih _ true (by simp [ht])]
      · simp only [renderBlock, rendererHeading]
        rw [if_neg (by simp [hl]), if_neg hl]
        rw [ih _ seen hinv]
    | paragraph ins =>
      have hpres := renderInlines_title cfg supply ins st
      rw [ih _ seen (by rw [renderBlock, hpres]; exact hinv)]
    | blockCode c i =>
      rw [ih _ seen (by rw [renderBlock]; exact hinv)]
    | blockMath s =>
      rw [ih _ seen (by rw [renderBlock]; exact hinv)]

/-- C10: with `strip_header` enabled, the rendered body elides exactly the
first level-1 heading — every other heading, including later level-1
headings, is still emitted — and the captured title is the first level-1
heading's text, unchanged by any later heading. -/
theorem c10_strip_first_h1_only (supply : Nat → String) (rtn erl : Bool)
    (blocks : List Block) :
    (parsePage { strip_header := true, remove_text_newlines := rtn,
                 enable_relative_links := erl } supply blocks).body =
      renderBlocksSpecStrip { strip_header := true, remove_text_newlines := rtn,
                              enable_relative_links := erl } supply {} false blocks ∧
    (parsePage { strip_header := true, remove_text_newlines := rtn,
                 enable_relative_links := erl } supply blocks).title =
      firstH1Title blocks := by
  constructor
  · simp only [parsePage]
    exact renderBlocks_specStrip _ supply rfl blocks {} false (by simp)
  · exact parsePage_title _ supply blocks

/-- C1: the title produced by `get_page_data_from_lines` is the first
level-1 heading's text of the (frontmatter-stripped) document, unless the
frontmatter declares a `title`, in which case the frontmatter's value wins. -/
theorem c1_roundtrip_title (mdParse : String → List Block)
    (yamlLoad : String → YamlRes) (supply : Nat → String)
    (cfg : RendererConfig) (lines : List String) (fm : Frontmatter)
    (T : String) (page : LPage)
    (hfm : getDocumentFrontmatter yamlLoad lines = .ok fm)
    (hT : firstH1Title (mdParse (String.join
      (match fm.frontmatter_end_line with
       | some e => lines.drop e
       | none => lines))) = some T)
    (hpage : getPageDataFromLines mdParse yamlLoad supply cfg lines = .ok page) :
    page.title = (match lookupKey "title" fm.entries with
                  | some v => some v
                  | none => some (.vStr T)) := by
  unfold getPageDataFromLines at hpage
  rw [hfm] at hpage
  simp only [bind, Except.bind] at hpage
  cases hl : lookupKey "labels" fm.entries with
  | none =>
    rw [hl] at hpage
    simp only [bind, Except.bind, pure, Except.pure, Except.ok.injEq] at hpage
    subst hpage
    simp only
    rw [parsePage_title, hT]
    cases lookupKey "title" fm.entries <;> rfl
  | some v =>
    rw [hl] at hpage
    cases v with
    | vList l =>
      simp only [bind, Except.bind, pure, Except.pure, Except.ok.injEq] at hpage
      subst hpage
      simp only
      rw [parsePage_title, hT]
      cases lookupKey "title" fm.entries <;> rfl
    | vStr s => simp [bind, Except.bind] at hpage
    | vNull => simp [bind, Except.bind] at hpage
    | vNat n => simp [bind, Except.bind] at hpage

/-- Witness for `c1_roundtrip_title`: frontmatter declaring `title: Custom`
over a document whose first level-1 heading is `Head`. -/
theorem c1_roundtrip_title_witness :
    ({ title := some (.vStr "Custom"), body := superHeading "Head" 1 } : LPage).title =
      (match lookupKey "title" [("title", YamlVal.vStr "Custom")] with
       | some v => some v
       | none => some (.vStr "Head")) := by
  exact c1_roundtrip_title
    (fun s => if s = "# Head\n" then [Block.heading 1 "Head"] else [])
    (fun s => if s = "title: Custom\n" then .dict [("title", .vStr "Custom")] else .nonDict)
    (fun _ => "") {}
    ["---\n", "title: Custom\n", "---\n", "# Head\n"]
    { entries := [("title", .vStr "Custom")], frontmatter_end_line := some 3 }
    "Head" _
    (by decide)
    (by decide)
    (by decide)

/-- C9 (amended): `get_document_frontmatter` considers a frontmatter block
only when the very first line is exactly `---` and a closing `---` line
follows; an empty enclosed block, a `ParserError`, or a non-mapping parse
all yield "no frontmatter"; a yaml failure other than `ParserError`
propagates as an exception; a nonempty enclosed block parsing to a mapping
is returned together with the index of the first body line past the closing
delimiter. -/
theorem c9_frontmatter_contract (yamlLoad : String → YamlRes)
    (lines : List String) :
    (∀ first rest, lines = first :: rest → first ≠ "---\n" →
       getDocumentFrontmatter yamlLoad lines = .ok {}) ∧
    (lines = [] → getDocumentFrontmatter yamlLoad lines = .ok {}) ∧
    (∀ rest, lines = "---\n" :: rest →
       rest.findIdx? (fun l => l = "---\n") = none →
       getDocumentFrontmatter yamlLoad lines = .ok {}) ∧
    (∀ rest i, lines = "---\n" :: rest →
       rest.findIdx? (fun l => l = "---\n") = some i →
       String.join (rest.take i) = "" →
       getDocumentFrontmatter yamlLoad lines = .ok {}) ∧
    (∀ rest i, lines = "---\n" :: rest →
       rest.findIdx? (fun l => l = "---\n") = some i →
       (yamlLoad (String.join (rest.take i)) = .raiseParserError ∨
        yamlLoad (String.join (rest.take i)) = .nonDict) →
       getDocumentFrontmatter yamlLoad lines = .ok {}) ∧
    (∀ rest i, lines = "---\n" :: rest →
       rest.findIdx? (fun l => l = "---\n") = some i →
       String.join (rest.take i) ≠ "" →
       yamlLoad (String.join (rest.take i)) = .raiseOther →
       getDocumentFrontmatter yamlLoad lines = .error ()) ∧
    (∀ rest i m, lines = "---\n" :: rest →
       rest.findIdx? (fun l => l = "---\n") = some i →
       String.join (rest.take i) ≠ "" →
       yamlLoad (String.join (rest.take i)) = .dict m →
       getDocumentFrontmatter yamlLoad lines =
         .ok { entries := m, frontmatter_end_line := some (i + 2) }) := by
  refine ⟨?_, ?_, ?_, ?_, ?_, ?_, ?_⟩
  · intro first rest hl hne
    subst hl
    simp [getDocumentFrontmatter, hne]
  · intro hl
    subst hl
    simp [getDocumentFrontmatter]
  · intro rest hl hidx
    subst hl
    simp [getDocumentFrontmatter, hidx]
  · intro rest i hl hidx hempty
    subst hl
    simp [getDocumentFrontmatter, hidx, hempty]
  · intro rest i hl hidx hres
    subst hl
    rcases hres with h | h <;> simp [getDocumentFrontmatter, hidx, h] <;> intro hne <;>
      simp [h]
  · intro rest i hl hidx hne hres
    subst hl
    simp [getDocumentFrontmatter, hidx, hne, hres]
  · intro rest i m hl hidx hne hres
    subst hl
    simp [getDocumentFrontmatter, hidx, hne, hres]

/-- Witness for `c9_frontmatter_contract`: a well-formed frontmatter block
`k: v` is returned with the first body line index 3. -/
theorem c9_frontmatter_contract_witness :
    getDocumentFrontmatter
      (fun s => if s = "k: v\n" then .dict [("k", .vStr "v")] else .raiseOther)
      ["---\n", "k: v\n", "---\n", "x\n"] =
      .ok { entries := [("k", .vStr "v")], frontmatter_end_line := some 3 } := by
  exact (c9_frontmatter_contract
      (fun s => if s = "k: v\n" then .dict [("k", .vStr "v")] else .raiseOther)
      ["---\n", "k: v\n", "---\n", "x\n"]).2.2.2.2.2.2
    ["k: v\n", "---\n", "x\n"] 1 [("k", .vStr "v")] rfl (by decide) (by decide)
    (by decide)

/-- C2 counterexample: with `use_pages_file` and `skip_empty`, a walk root
whose `.pages` declares title `T` but which contains no markdown file emits
no root page, while its child folder `A` resolves its parent through
`find_non_empty_parent_path`'s default — the root — and is emitted with
`parent_title = "T"`, which is no emitted page's title. -/
theorem c2_counterexample :
    getPagesFromDirectory { use_pages_file := true, skip_empty := true }
      (fun _ => false)
      (fun p => { title := "Doc-" ++ String.intercalate "/" p, body := "b" })
      [{ path := [], pagesTitle := some (some "T") },
       { path := ["A"], files := ["doc.md"] }] =
      some [{ title := some "A", parent_title := some "T", body := "" },
            { title := some "Doc-A/doc.md", parent_title := some "A",
              body := "b", file_path := some ["A", "doc.md"] }] ∧
    ¬ pageLinks (dirPairs
      [{ title := some "A", parent_title := some "T", body := "" },
       { title := some "Doc-A/doc.md", parent_title := some "A",
         body := "b", file_path := some ["A", "doc.md"] }]) := by
  constructor
  · decide
  · decide

/-- C3 counterexample: the folder `guide` contains exactly one markdown
document `page.md` and collapsing is enabled, yet — because a sibling
document `guide.md` exists and becomes the folder's content — a Page for
the folder itself (first record: body from `guide.md`, title `G`) is
emitted in addition to the document's page, contradicting "emits no Page
for the folder itself". -/
theorem c3_counterexample :
    getPagesFromDirectory { collapse_single_pages := true }
      (fun _ => false)
      (fun p => if p = ["guide.md"]
                then { title := "G", body := "guide body" }
                else { title := "P", body := "page body" })
      [{ path := [], files := ["guide.md"] },
       { path := ["guide"], files := ["page.md"] }] =
      some [{ title := some "G", parent_title := none, body := "guide body",
              file_path := some ["guide.md"] },
            { title := some "P", parent_title := some "G", body := "page body",
              file_path := some ["guide", "page.md"] }] := by
  decide

theorem find?_replaceAt_self (fd : List (List String × FolderEntry))
    (p : List String) (e : FolderEntry) :
    (fd.map (fun q => if q.1 = p then (p, e) else q)).find? (fun q => q.1 = p) =
      (fd.find? (fun q => q.1 = p)).map (fun _ => (p, e)) := by
  induction fd with
  | nil => simp
  | cons hd tl ih =>
    by_cases hp : hd.1 = p
    · simp [List.find?_cons_of_pos, hp]
    · rw [List.map_cons, if_neg hp, List.find?_cons_of_neg _ (by simpa using hp),
          List.find?_cons_of_neg _ (by simpa using hp), ih]

theorem find?_replaceAt_ne (fd : List (List String × FolderEntry))
    (p : List String) (e : FolderEntry) (q : List String) (hq : q ≠ p) :
    (fd.map (fun r => if r.1 = p then (p, e) else r)).find? (fun r => r.1 = q) =
      fd.find? (fun r => r.1 = q) := by
  induction fd with
  | nil => simp
  | cons hd tl ih =>
    by_cases hp : hd.1 = p
    · rw [List.map_cons, if_pos hp, List.find?_cons_of_neg _ (by simpa using fun h => hq h.symm),
          List.find?_cons_of_neg _ (by simp [hp]; exact fun h => hq h.symm), ih]
    · by_cases hqq : hd.1 = q
      · rw [List.map_cons, if_neg hp, List.find?_cons_of_pos _ (by simpa using hqq),
            List.find?_cons_of_pos _ (by simpa using hqq)]
      · rw [List.map_cons, if_neg hp, List.find?_cons_of_neg _ (by simpa using hqq),
            List.find?_cons_of_neg _ (by simpa using hqq), ih]

theorem fdFind_fdSet_self (fd : List (List String × FolderEntry))
    (p : List String) (e : FolderEntry) : fdFind (fdSet fd p e) p = some e := by
  unfold fdFind fdSet
  cases h : (fd.find? (fun q => q.1 = p)) with
  | some x => simp [h, find?_replaceAt_self fd p e]
  | none => simp [h, List.find?_append]

theorem fdFind_fdSet_ne (fd : List (List String × FolderEntry))
    (p : List String) (e : FolderEntry) (q : List String) (hq : q ≠ p) :
    fdFind (fdSet fd p e) q = fdFind fd q := by
  unfold fdFind fdSet
  cases h : (fd.find? (fun r => r.1 = p)) with
  | some x => simp [h, find?_replaceAt_ne fd p e q hq]
  | none => simp [h, List.find?_append, Ne.symm hq]

theorem find?_retitleAt_self (fd : List (List String × FolderEntry))
    (p : List String) (t : Option String) :
    (fd.map (fun q => if q.1 = p then (q.1, { q.2 with title := t }) else q)).find?
        (fun q => q.1 = p) =
      (fd.find? (fun q => q.1 = p)).map (fun q => (q.1, { q.2 with title := t })) := by
  induction fd with
  | nil => simp
  | cons hd tl ih =>
    by_cases hp : hd.1 = p
    · rw [List.map_cons, if_pos hp, List.find?_cons_of_pos _ (by simpa using hp),
          List.find?_cons_of_pos _ (by simpa using hp)]
      simp
    · rw [List.map_cons, if_neg hp, List.find?_cons_of_neg _ (by simpa using hp),
          List.find?_cons_of_neg _ (by simpa using hp), ih]

theorem fdFind_fdSetTitle_self (fd : List (List String × FolderEntry))
    (p : List String) (t : Option String) :
    fdFind (fdSetTitle fd p t) p = (fdFind fd p).map (fun en => { en with title := t }) := by
  unfold fdFind fdSetTitle
  rw [find?_retitleAt_self]
  cases fd.find? (fun q => q.1 = p) <;> rfl

theorem fdFind_fdSetTitle_ne (fd : List (List String × FolderEntry))
    (p : List String) (t : Option String) (q : List String) (hq : q ≠ p) :
    fdFind (fdSetTitle fd p t) q = fdFind fd q := by
  unfold fdFind fdSetTitle
  congr 1
  induction fd with
  | nil => simp
  | cons hd tl ih =>
    by_cases hp : hd.1 = p
    · rw [List.map_cons, if_pos hp,
          List.find?_cons_of_neg _ (by simp [hp]; exact fun h => hq h.symm),
          List.find?_cons_of_neg _ (by simp [hp]; exact fun h => hq h.symm), ih]
    · by_cases hqq : hd.1 = q
      · rw [List.map_cons, if_neg hp, List.find?_cons_of_pos _ (by simpa using hqq),
            List.find?_cons_of_pos _ (by simpa using hqq)]
      · rw [List.map_cons, if_neg hp, List.find?_cons_of_neg _ (by simpa using hqq),
            List.find?_cons_of_neg _ (by simpa using hqq), ih]


/-! ### Linked-prefix machinery for the parent-title invariant -/

theorem linkedPrefix_nil : linkedPrefix [] := by
  intro i
  exact absurd i.isLt (by simp)

theorem linkedPrefix.pageLinks {l : List (Option String × Option String)}
    (h : linkedPrefix l) : pageLinks l := by
  intro i
  rcases h i with hn | ⟨j, hj, he⟩
  · exact Or.inl hn
  · exact Or.inr ⟨j, fun hji => by simp [hji] at hj, he⟩

theorem linkedPrefix_append_one {l : List (Option String × Option String)}
    {x : Option String × Option String}
    (h : linkedPrefix l) (hx : x.2 = none ∨ ∃ q ∈ l, q.1 = x.2) :
    linkedPrefix (l ++ [x]) := by
  intro i
  by_cases hi : i.val < l.length
  · rcases h ⟨i.val, hi⟩ with hn | ⟨j, hj, he⟩
    · left
      rw [List.get_append _ hi] at *
      exact hn
    · right
      refine ⟨⟨j.val, by simp; omega⟩, by simpa using hj, ?_⟩
      rw [List.get_append _ (by omega), List.get_append _ hi]
      exact he
  · have hix : i.val = l.length := by
      have := i.isLt
      simp at this
      omega
    have hgx : (l ++ [x]).get i = x := by
      rw [List.get_append_right] <;> simp [hix]
    rcases hx with hn | ⟨q, hq, he⟩
    · left
      rw [hgx]
      exact hn
    · right
      obtain ⟨k, hk⟩ := List.mem_iff_get.mp hq
      have hklt : k.val < l.length := k.isLt
      refine ⟨⟨k.val, by simp; omega⟩, by simpa [hix] using hklt, ?_⟩
      rw [hgx, List.get_append _ hklt]
      rw [Fin.eta, hk]
      exact he

theorem linkedPrefix_append_many {l : List (Option String × Option String)}
    {news : List (Option String × Option String)} {pt : Option String}
    (h : linkedPrefix l) (hpt : pt = none ∨ ∃ q ∈ l, q.1 = pt)
    (hnews : ∀ x ∈ news, x.2 = pt) :
    linkedPrefix (l ++ news) := by
  induction news generalizing l with
  | nil => simpa using h
  | cons n rest ih =>
    have h1 : linkedPrefix (l ++ [n]) := by
      apply linkedPrefix_append_one h
      rw [hnews n (by simp)]
      exact hpt
    have : l ++ n :: rest = (l ++ [n]) ++ rest := by simp
    rw [this]
    apply ih h1
    · rcases hpt with hn | ⟨q, hq, he⟩
      · exact Or.inl hn
      · exact Or.inr ⟨q, by simp [hq], he⟩
    · intro x hx
      exact hnews x (by simp [hx])


theorem Backed.append {pages news : List DirPage} {t : String}
    (h : Backed pages t) : Backed (pages ++ news) t := by
  obtain ⟨pg, hm, ht⟩ := h
  exact ⟨pg, by simp [hm], ht⟩

theorem Backed.pair {pages : List DirPage} {t : String} (h : Backed pages t) :
    ∃ q ∈ dirPairs pages, q.1 = some t := by
  obtain ⟨pg, hm, ht⟩ := h
  exact ⟨(pg.title, pg.parent_title), by simp [dirPairs]; exact ⟨pg, hm, rfl, rfl⟩, ht⟩

theorem dirPairs_append (a b : List DirPage) :
    dirPairs (a ++ b) = dirPairs a ++ dirPairs b := by
  simp [dirPairs]

theorem fdClauses_mono {flags fs pages p ent} (news : List DirPage)
    (h : fdClauses flags fs pages p ent) :
    fdClauses flags fs (pages ++ news) p ent := by
  intro t ht
  obtain ⟨h1, h2, h3⟩ := h t ht
  exact ⟨fun a => (h1 a).append, fun a b c => (h2 a b c).append,
         fun a b => (h3 a b).append⟩

theorem PptOk_mono {pages ppt} (news : List DirPage) (h : PptOk pages ppt) :
    PptOk (pages ++ news) ppt := by
  rcases h with h | ⟨t, ht, hb⟩
  · exact Or.inl h
  · exact Or.inr ⟨t, ht, hb.append⟩

/-- A walked directory testifies that its parent has a child. -/
theorem childNames_ne_nil {fs : List FsEntry} {e : FsEntry}
    (he : e ∈ fs) (hne : e.path ≠ []) :
    childNames fs e.path.dropLast ≠ [] := by
  have : e.path.getLast?.getD "" ∈ childNames fs e.path.dropLast := by
    apply List.mem_filterMap.mpr
    refine ⟨e, he, ?_⟩
    rw [if_pos (by simp [hne])]
    cases hp : e.path.getLast? with
    | none => exact absurd (List.getLast?_eq_none_iff.mp hp) hne
    | some x => simp [hp]
  intro hnil
  rw [hnil] at this
  simp at this

theorem parentsOf_length {p par : List String} (h : par ∈ parentsOf p) :
    par.length < p.length := by
  unfold parentsOf at h
  rw [List.mem_reverse] at h
  obtain ⟨k, hk, hpar⟩ := List.mem_map.mp h
  rw [List.mem_range] at hk
  subst hpar
  simp [hk, Nat.le_of_lt]

theorem parentsOf_ne {p par : List String} (h : par ∈ parentsOf p) : par ≠ p :=
  fun he => absurd (he ▸ parentsOf_length h) (by simp)

/-- Case analysis of `find_non_empty_parent_path`. -/
theorem findNonEmptyParentPath_spec (fd : List (List String × FolderEntry))
    (p : List String) :
    (findNonEmptyParentPath fd p ∈ parentsOf p ∧
      ∃ en, fdFind fd (findNonEmptyParentPath fd p) = some en ∧ en.n_files ≠ 0) ∨
    findNonEmptyParentPath fd p = [] := by
  unfold findNonEmptyParentPath
  cases hfind : (parentsOf p).find? (fun par =>
      match fdFind fd par with
      | some e => e.n_files ≠ 0
      | none => false) with
  | none => exact Or.inr rfl
  | some par =>
    left
    have hmem := List.mem_of_find?_eq_some hfind
    have hpred := List.find?_some hfind
    refine ⟨hmem, ?_⟩
    cases hen : fdFind fd par with
    | none => rw [hen] at hpred; simp at hpred
    | some en =>
      rw [hen] at hpred
      simp at hpred
      exact ⟨en, rfl, hpred⟩


/-- One document-loop step preserves the invariant (the appended page is
parented at the fixed, already-backed `parentPageTitle`; a collapse retitle
is backed by that very page). -/
theorem docStep_inv (flags : DirFlags) (pageOf : List String → DocPage)
    (contentFiles : List (List String)) (fs : List FsEntry)
    (path : List String) (fcf : Option (List String)) (ppt : Option String)
    (mdLen : Nat) (acc : List (List String × FolderEntry) × List DirPage)
    (f : List String)
    (h1 : linkedPrefix (dirPairs acc.2))
    (h2 : ∀ p ent, fdFind acc.1 p = some ent → fdClauses flags fs acc.2 p ent)
    (h3 : PptOk acc.2 ppt) :
    linkedPrefix (dirPairs (docStep flags pageOf contentFiles path fcf ppt mdLen acc f).2) ∧
    (∀ p ent, fdFind (docStep flags pageOf contentFiles path fcf ppt mdLen acc f).1 p =
        some ent →
      fdClauses flags fs (docStep flags pageOf contentFiles path fcf ppt mdLen acc f).2 p ent) ∧
    PptOk (docStep flags pageOf contentFiles path fcf ppt mdLen acc f).2 ppt ∧
    (∃ news, (docStep flags pageOf contentFiles path fcf ppt mdLen acc f).2 = acc.2 ++ news) := by
  unfold docStep
  by_cases hc1 : fcf = some f
  · simp only [if_pos hc1]
    exact ⟨h1, h2, h3, [], by simp⟩
  by_cases hc2 : contentFiles.contains f
  · simp only [if_neg hc1, if_pos hc2]
    exact ⟨h1, h2, h3, [], by simp⟩
  simp only [if_neg hc1, if_neg hc2]
  set pp := pageOf f with hpp
  set page : DirPage :=
    { title := some pp.title, parent_title := ppt,
      body := pp.body, file_path := some f,
      attachments := pp.attachments, relative_links := pp.relative_links } with hpage
  have hbacked : Backed (acc.2 ++ [page]) pp.title := ⟨page, by simp, rfl⟩
  have hlink : linkedPrefix (dirPairs (acc.2 ++ [page])) := by
    rw [dirPairs_append]
    apply linkedPrefix_append_one h1
    rcases h3 with hn | ⟨t, ht, hb⟩
    · left
      simp [dirPairs, hpage, hn]
    · right
      obtain ⟨q, hq, hq1⟩ := hb.pair
      exact ⟨q, hq, by simp [dirPairs, hpage, ht, hq1]⟩
  refine ⟨hlink, ?_, PptOk_mono [page] h3, [page], rfl⟩
  intro p ent hent
  by_cases hcol : mdLen = 1 && flags.collapse_single_pages
  · rw [if_pos hcol] at hent
    by_cases hp : p = path
    · subst hp
      rw [fdFind_fdSetTitle_self] at hent
      cases horig : fdFind acc.1 p with
      | none => rw [horig] at hent; simp at hent
      | some orig =>
        rw [horig] at hent
        simp at hent
        intro t ht
        rw [← hent] at ht
        simp at ht
        subst ht
        exact ⟨fun a => hbacked, fun a b c => hbacked, fun a b => hbacked⟩
    · rw [fdFind_fdSetTitle_ne _ _ _ _ hp] at hent
      exact fdClauses_mono [page] (h2 p ent hent)
  · rw [if_neg hcol] at hent
    exact fdClauses_mono [page] (h2 p ent hent)

/-- The document loop preserves the invariant. -/
theorem docsFold_inv (flags : DirFlags) (pageOf : List String → DocPage)
    (contentFiles : List (List String)) (fs : List FsEntry)
    (path : List String) (fcf : Option (List String)) (ppt : Option String)
    (mdLen : Nat) :
    ∀ (files : List (List String))
      (acc : List (List String × FolderEntry) × List DirPage),
    linkedPrefix (dirPairs acc.2) →
    (∀ p ent, fdFind acc.1 p = some ent → fdClauses flags fs acc.2 p ent) →
    PptOk acc.2 ppt →
    linkedPrefix (dirPairs (files.foldl (docStep flags pageOf contentFiles path fcf ppt mdLen) acc).2) ∧
    (∀ p ent, fdFind (files.foldl (docStep flags pageOf contentFiles path fcf ppt mdLen) acc).1 p
        = some ent →
      fdClauses flags fs (files.foldl (docStep flags pageOf contentFiles path fcf ppt mdLen) acc).2 p ent) ∧
    PptOk (files.foldl (docStep flags pageOf contentFiles path fcf ppt mdLen) acc).2 ppt ∧
    (∃ news, (files.foldl (docStep flags pageOf contentFiles path fcf ppt mdLen) acc).2 = acc.2 ++ news) := by
  intro files
  induction files with
  | nil => intro acc h1 h2 h3; exact ⟨h1, h2, h3, [], by simp⟩
  | cons f rest ih =>
    intro acc h1 h2 h3
    simp only [List.foldl_cons]
    obtain ⟨g1, g2, g3, news, hnews⟩ :=
      docStep_inv flags pageOf contentFiles fs path fcf ppt mdLen acc f h1 h2 h3
    obtain ⟨r1, r2, r3, news2, hnews2⟩ := ih _ g1 g2 g3
    exact ⟨r1, r2, r3, news ++ news2, by rw [hnews2, hnews, List.append_assoc]⟩


/-- `parent_page_title` out of the resolution step is the parent's recorded
title, the folder title, or null. -/
theorem resolveParent_shape {flags : DirFlags}
    {fd0 : List (List String × FolderEntry)} {path : List String} {cn : Bool}
    {fpt ppt0 ft0 : Option String}
    (h : resolveParent flags fd0 path cn = some (fpt, ppt0, ft0)) :
    ppt0 = fpt ∨ ppt0 = ft0 ∨ ppt0 = none := by
  unfold resolveParent at h
  by_cases hp : path = []
  · rw [if_pos hp] at h
    simp only [Option.some.injEq, Prod.mk.injEq] at h
    exact Or.inr (Or.inr h.2.1.symm)
  · rw [if_neg hp] at h
    simp only [] at h
    cases hfe : fdFind fd0
        (if flags.skip_empty || flags.collapse_empty then
          findNonEmptyParentPath fd0 path else path.dropLast) with
    | none => rw [hfe] at h; simp at h
    | some pe =>
      rw [hfe] at h
      simp only [] at h
      by_cases hcn : cn
      · rw [if_pos hcn] at h
        simp only [Option.some.injEq, Prod.mk.injEq] at h
        exact Or.inl (h.2.1.symm.trans h.1)
      · rw [if_neg hcn] at h
        simp only [Option.some.injEq, Prod.mk.injEq] at h
        exact Or.inr (Or.inl (h.2.1.symm.trans h.2.2))

/-- Under the invariant, a non-null `folder_parent_title` produced by the
resolution step names an already-emitted page. -/
theorem resolveParent_backed (flags : DirFlags) (fs : List FsEntry)
    (st : WalkState) (e : FsEntry) (ent : FolderEntry) (cn : Bool)
    (he : e ∈ fs) (hinv : StInv flags fs st.folder_data st.pages)
    {fpt ppt0 ft0 : Option String}
    (h : resolveParent flags (fdSet st.folder_data e.path ent) e.path cn =
      some (fpt, ppt0, ft0)) :
    ∀ t, fpt = some t → Backed st.pages t := by
  intro t ht
  unfold resolveParent at h
  by_cases hp : e.path = []
  · rw [if_pos hp] at h
    simp only [Option.some.injEq, Prod.mk.injEq] at h
    rw [← h.1] at ht
    exact absurd ht (by simp)
  · rw [if_neg hp] at h
    simp only [] at h
    set fd0 := fdSet st.folder_data e.path ent with hfd0
    set fpp := (if flags.skip_empty || flags.collapse_empty then
      findNonEmptyParentPath fd0 e.path else e.path.dropLast) with hfpp
    cases hfe : fdFind fd0 fpp with
    | none => rw [hfe] at h; simp at h
    | some pe =>
      rw [hfe] at h
      simp only [] at h
      have hfpt : fpt = pe.title := by
        by_cases hcn : cn
        · rw [if_pos hcn] at h
          simp only [Option.some.injEq, Prod.mk.injEq] at h
          exact h.1.symm
        · rw [if_neg hcn] at h
          simp only [Option.some.injEq, Prod.mk.injEq] at h
          exact h.1.symm
      have hpt : pe.title = some t := hfpt ▸ ht
      by_cases hflags : flags.skip_empty || flags.collapse_empty
      · have hfppv : fpp = findNonEmptyParentPath fd0 e.path := by
          rw [hfpp, if_pos hflags]
        rcases findNonEmptyParentPath_spec fd0 e.path with
          ⟨hmem, en, hen, hnf⟩ | hnil
        · have hne : fpp ≠ e.path := hfppv ▸ parentsOf_ne hmem
          have hold : fdFind st.folder_data fpp = some pe := by
            rw [← fdFind_fdSet_ne st.folder_data e.path ent fpp hne, ← hfd0]
            exact hfe
          have hpe : en = pe := by
            rw [← hfppv] at hen
            rw [hen] at hfe
            exact Option.some.inj hfe
          exact ((hinv.2 fpp pe hold) t hpt).1 (hpe ▸ hnf)
        · have hfppn : fpp = [] := hfppv.trans hnil
          have hne : fpp ≠ e.path := fun hc => hp (hfppn ▸ hc).symm
          have hold : fdFind st.folder_data fpp = some pe := by
            rw [← fdFind_fdSet_ne st.folder_data e.path ent fpp hne, ← hfd0]
            exact hfe
          have hdisj : flags.skip_empty = true ∨ flags.collapse_empty = true := by
            rcases Bool.or_eq_true_iff.mp hflags with h1 | h1
            · exact Or.inl h1
            · exact Or.inr h1
          exact ((hinv.2 fpp pe hold) t hpt).2.2 hdisj hfppn
      · have hfppv : fpp = e.path.dropLast := by
          rw [hfpp, if_neg hflags]
        have hoff : flags.skip_empty = false ∧ flags.collapse_empty = false := by
          rcases hs : flags.skip_empty with _ | _ <;>
            rcases hc : flags.collapse_empty with _ | _ <;>
            simp [hs, hc] at hflags ⊢
        have hne : fpp ≠ e.path := by
          rw [hfppv]
          intro hc
          have := congrArg List.length hc
          rw [List.length_dropLast] at this
          have : e.path.length ≠ 0 := fun h0 => hp (List.length_eq_zero.mp h0)
          omega
        have hold : fdFind st.folder_data fpp = some pe := by
          rw [← fdFind_fdSet_ne st.folder_data e.path ent fpp hne, ← hfd0]
          exact hfe
        have hch : childNames fs fpp ≠ [] := by
          rw [hfppv]
          exact childNames_ne_nil he hp
        exact ((hinv.2 fpp pe hold) t hpt).2.1 hoff.1 hoff.2 hch


/-- `pagesOverrideOf` yields a title only from an existing `.pages` mapping
with a `title` key, under `use_pages_file`. -/
theorem pagesOverrideOf_some {flags : DirFlags} {pt : Option (Option String)}
    {t : String} (h : pagesOverrideOf flags pt = some t) :
    flags.use_pages_file = true ∧ pt = some (some t) := by
  unfold pagesOverrideOf at h
  by_cases hu : flags.use_pages_file
  · rw [if_pos hu] at h
    refine ⟨hu, ?_⟩
    match pt, h with
    | some (some s), h => simp at h; rw [h]
  · rw [if_neg hu] at h
    simp at h

/-- The settled emission-and-document phase preserves the invariant. -/
theorem dirCore_inv (flags : DirFlags) (pageOf : List String → DocPage)
    (contentFiles : List (List String)) (fs : List FsEntry) (st : WalkState)
    (path : List String) (M : List (List String)) (sdn : List String)
    (fcf : Option (List String)) (fd2 : List (List String × FolderEntry))
    (fpt ppt ft : Option String) (fb : String) (ffp : Option (List String))
    (fa : List String) (fr : List RelativeLink)
    (hinv1 : linkedPrefix (dirPairs st.pages))
    (hinv2 : ∀ p ent, fdFind st.folder_data p = some ent →
      fdClauses flags fs st.pages p ent)
    (hfd2self : fdFind fd2 path = some
      { n_files := M.length, content_file := fcf, subdirNames := sdn,
        title := ft })
    (hfd2ne : ∀ p, p ≠ path → fdFind fd2 p = fdFind st.folder_data p)
    (hB : ∀ t, fpt = some t → Backed st.pages t)
    (hshape : ppt = fpt ∨ ppt = ft ∨ ppt = none)
    (hsdn : sdn = childNames fs path)
    (hclause3 : ∀ t, ft = some t →
      (flags.skip_empty = true ∨ flags.collapse_empty = true) → path = [] →
      M ≠ []) :
    linkedPrefix (dirPairs (dirCore flags pageOf contentFiles st path M sdn
      fcf fd2 fpt ppt ft fb ffp fa fr).pages) ∧
    ∀ p ent, fdFind (dirCore flags pageOf contentFiles st path M sdn
        fcf fd2 fpt ppt ft fb ffp fa fr).folder_data p = some ent →
      fdClauses flags fs (dirCore flags pageOf contentFiles st path M sdn
        fcf fd2 fpt ppt ft fb ffp fa fr).pages p ent := by
  unfold dirCore
  simp only []
  set fp : DirPage :=
    { title := ft, parent_title := fpt, body := fb, file_path := ffp,
      attachments := fa, relative_links := fr } with hfp
  set cond := (ft.isSome &&
    (decide (M ≠ []) ||
     (decide (sdn ≠ []) && !flags.skip_empty && !flags.collapse_empty))) with hcond
  set P1 := (if cond = true then st.pages ++ [fp] else st.pages) with hP1
  have hP1news : ∃ news, P1 = st.pages ++ news ∧
      ∀ pg ∈ news, pg = fp := by
    rw [hP1]
    by_cases hc : cond = true
    · exact ⟨[fp], by rw [if_pos hc], by intro pg hpg; simpa using hpg⟩
    · exact ⟨[], by rw [if_neg hc]; simp, by intro pg hpg; simp at hpg⟩
  have hemit : ∀ t, ft = some t →
      (M ≠ [] ∨ (sdn ≠ [] ∧ flags.skip_empty = false ∧
        flags.collapse_empty = false)) →
      Backed P1 t := by
    intro t hft hor
    have hc : cond = true := by
      rw [hcond, hft]
      rcases hor with hM | ⟨h1, h2, h3⟩
      · simp [hM]
      · simp [h1, h2, h3]
    rw [hP1, if_pos hc]
    exact ⟨fp, by simp, by rw [hfp]; simpa using hft⟩
  have hmono : ∀ t, Backed st.pages t → Backed P1 t := by
    intro t hb
    obtain ⟨news, hnews, _⟩ := hP1news
    rw [hnews]
    exact hb.append
  have hlink1 : linkedPrefix (dirPairs P1) := by
    rw [hP1]
    by_cases hc : cond = true
    · rw [if_pos hc, dirPairs_append]
      apply linkedPrefix_append_one hinv1
      cases hfpt : fpt with
      | none => left; simp [dirPairs, hfp, hfpt]
      | some t =>
        right
        obtain ⟨q, hq, hq1⟩ := (hB t hfpt).pair
        exact ⟨q, hq, by simp [dirPairs, hfp, hq1, hfpt]⟩
    · rw [if_neg hc]
      exact hinv1
  have hfdcl : ∀ p ent, fdFind fd2 p = some ent →
      fdClauses flags fs P1 p ent := by
    intro p ent hent
    by_cases hp : p = path
    · subst hp
      rw [hfd2self] at hent
      obtain rfl := Option.some.inj hent
      intro t hft
      simp only [] at hft
      refine ⟨?_, ?_, ?_⟩
      · intro hnf
        refine hemit t hft (Or.inl ?_)
        intro hnil
        rw [hnil] at hnf
        simp at hnf
      · intro hs hc hch
        rw [← hsdn] at hch
        exact hemit t hft (Or.inr ⟨hch, hs, hc⟩)
      · intro hdisj hpnil
        exact hemit t hft (Or.inl (hclause3 t hft hdisj hpnil))
    · rw [hfd2ne p hp] at hent
      obtain ⟨news, hnews, _⟩ := hP1news
      rw [hnews]
      exact fdClauses_mono news (hinv2 p ent hent)
  by_cases hM : M = []
  · subst hM
    simp only [List.foldl_nil]
    exact ⟨hlink1, hfdcl⟩
  · have hppt : PptOk P1 ppt := by
      rcases hshape with h | h | h
      · rw [h]
        cases hfpt : fpt with
        | none => exact Or.inl rfl
        | some t => exact Or.inr ⟨t, rfl, hmono t (hB t hfpt)⟩
      · rw [h]
        cases hft : ft with
        | none => exact Or.inl rfl
        | some t => exact Or.inr ⟨t, rfl, hemit t hft (Or.inl hM)⟩
      · exact Or.inl h
    obtain ⟨r1, r2, _, _⟩ := docsFold_inv flags pageOf contentFiles fs path
      fcf ppt M.length M (fd2, P1) hlink1 hfdcl hppt
    exact ⟨r1, r2⟩


/-- The override-and-content phase preserves the invariant. -/
theorem dirFinish_inv (flags : DirFlags) (pageOf : List String → DocPage)
    (contentFiles : List (List String)) (fs : List FsEntry) (st : WalkState)
    (e : FsEntry) (M : List (List String)) (sdn : List String)
    (fcf : Option (List String)) (fd0 : List (List String × FolderEntry))
    (fpt ppt0 ft0 : Option String)
    (hinv1 : linkedPrefix (dirPairs st.pages))
    (hinv2 : ∀ p ent, fdFind st.folder_data p = some ent →
      fdClauses flags fs st.pages p ent)
    (hfd0self : fdFind fd0 e.path = some
      { n_files := M.length, content_file := fcf, subdirNames := sdn,
        title := none })
    (hfd0ne : ∀ p, p ≠ e.path → fdFind fd0 p = fdFind st.folder_data p)
    (hB : ∀ t, fpt = some t → Backed st.pages t)
    (hshape0 : ppt0 = fpt ∨ ppt0 = ft0 ∨ ppt0 = none)
    (hsdn : sdn = childNames fs e.path)
    (hrootft0 : e.path = [] → ft0 = none)
    (hrootfcf : e.path = [] → fcf = none)
    (hrootmd : e.path = [] → ∀ t, pagesOverrideOf flags e.pagesTitle = some t →
      (flags.skip_empty = true ∨ flags.collapse_empty = true) → M ≠ []) :
    linkedPrefix (dirPairs (dirFinish flags pageOf contentFiles st e M sdn
      fcf fd0 fpt ppt0 ft0).pages) ∧
    ∀ p ent, fdFind (dirFinish flags pageOf contentFiles st e M sdn
        fcf fd0 fpt ppt0 ft0).folder_data p = some ent →
      fdClauses flags fs (dirFinish flags pageOf contentFiles st e M sdn
        fcf fd0 fpt ppt0 ft0).pages p ent := by
  unfold dirFinish
  cases hpo : pagesOverrideOf flags e.pagesTitle with
  | none =>
    simp only []
    have hself : ∀ v : Option String,
        fdFind (fdSetTitle fd0 e.path v) e.path = some
          { n_files := M.length, content_file := fcf, subdirNames := sdn,
            title := v } := by
      intro v
      rw [fdFind_fdSetTitle_self, hfd0self]
      rfl
    have hne : ∀ v : Option String, ∀ p, p ≠ e.path →
        fdFind (fdSetTitle fd0 e.path v) p = fdFind st.folder_data p := by
      intro v p hp
      rw [fdFind_fdSetTitle_ne _ _ _ _ hp]
      exact hfd0ne p hp
    cases fcf with
    | none =>
      refine dirCore_inv flags pageOf contentFiles fs st e.path M sdn none
        (fdSetTitle fd0 e.path ft0) fpt ppt0 ft0 "" none [] []
        hinv1 hinv2 (hself ft0) (hne ft0) hB hshape0 hsdn ?_
      intro t hft hdisj hpnil
      rw [hrootft0 hpnil] at hft
      exact absurd hft (by simp)
    | some f =>
      simp only []
      have hpne : e.path ≠ [] := by
        intro hnil
        have := hrootfcf hnil
        simp at this
      by_cases hct : (pageOf f).title ≠ ""
      · rw [if_pos hct]
        have hself2 : fdFind (fdSetTitle (fdSetTitle fd0 e.path ft0) e.path
            (some (pageOf f).title)) e.path = some
            { n_files := M.length, content_file := some f, subdirNames := sdn,
              title := some (pageOf f).title } := by
          rw [fdFind_fdSetTitle_self, hself ft0]
          rfl
        have hne2 : ∀ p, p ≠ e.path →
            fdFind (fdSetTitle (fdSetTitle fd0 e.path ft0) e.path
              (some (pageOf f).title)) p = fdFind st.folder_data p := by
          intro p hp
          rw [fdFind_fdSetTitle_ne _ _ _ _ hp]
          exact hne ft0 p hp
        refine dirCore_inv flags pageOf contentFiles fs st e.path M sdn
          (some f) _ fpt (some (pageOf f).title) (some (pageOf f).title)
          (pageOf f).body (some f) (pageOf f).attachments
          (pageOf f).relative_links
          hinv1 hinv2 hself2 hne2 hB (Or.inr (Or.inl rfl)) hsdn ?_
        intro t _ _ hpnil
        exact absurd hpnil hpne
      · rw [if_neg hct]
        refine dirCore_inv flags pageOf contentFiles fs st e.path M sdn
          (some f) (fdSetTitle fd0 e.path ft0) fpt ppt0 ft0
          (pageOf f).body (some f) (pageOf f).attachments
          (pageOf f).relative_links
          hinv1 hinv2 (hself ft0) (hne ft0) hB hshape0 hsdn ?_
        intro t _ _ hpnil
        exact absurd hpnil hpne
  | some u =>
    simp only []
    have hself : ∀ v : Option String,
        fdFind (fdSetTitle fd0 e.path v) e.path = some
          { n_files := M.length, content_file := fcf, subdirNames := sdn,
            title := v } := by
      intro v
      rw [fdFind_fdSetTitle_self, hfd0self]
      rfl
    have hne : ∀ v : Option String, ∀ p, p ≠ e.path →
        fdFind (fdSetTitle fd0 e.path v) p = fdFind st.folder_data p := by
      intro v p hp
      rw [fdFind_fdSetTitle_ne _ _ _ _ hp]
      exact hfd0ne p hp
    cases fcf with
    | none =>
      refine dirCore_inv flags pageOf contentFiles fs st e.path M sdn none
        (fdSetTitle fd0 e.path (some u)) fpt (some u) (some u) "" none [] []
        hinv1 hinv2 (hself (some u)) (hne (some u)) hB
        (Or.inr (Or.inl rfl)) hsdn ?_
      intro t hft hdisj hpnil
      exact hrootmd hpnil u hpo hdisj
    | some f =>
      simp only []
      have hpne : e.path ≠ [] := by
        intro hnil
        have := hrootfcf hnil
        simp at this
      by_cases hct : (pageOf f).title ≠ ""
      · rw [if_pos hct]
        have hself2 : fdFind (fdSetTitle (fdSetTitle fd0 e.path (some u))
            e.path (some (pageOf f).title)) e.path = some
            { n_files := M.length, content_file := some f, subdirNames := sdn,
              title := some (pageOf f).title } := by
          rw [fdFind_fdSetTitle_self, hself (some u)]
          rfl
        have hne2 : ∀ p, p ≠ e.path →
            fdFind (fdSetTitle (fdSetTitle fd0 e.path (some u)) e.path
              (some (pageOf f).title)) p = fdFind st.folder_data p := by
          intro p hp
          rw [fdFind_fdSetTitle_ne _ _ _ _ hp]
          exact hne (some u) p hp
        refine dirCore_inv flags pageOf contentFiles fs st e.path M sdn
          (some f) _ fpt (some (pageOf f).title) (some (pageOf f).title)
          (pageOf f).body (some f) (pageOf f).attachments
          (pageOf f).relative_links
          hinv1 hinv2 hself2 hne2 hB (Or.inr (Or.inl rfl)) hsdn ?_
        intro t _ _ hpnil
        exact absurd hpnil hpne
      · rw [if_neg hct]
        refine dirCore_inv flags pageOf contentFiles fs st e.path M sdn
          (some f) (fdSetTitle fd0 e.path (some u)) fpt (some u) (some u)
          (pageOf f).body (some f) (pageOf f).attachments
          (pageOf f).relative_links
          hinv1 hinv2 (hself (some u)) (hne (some u)) hB
          (Or.inr (Or.inl rfl)) hsdn ?_
        intro t _ _ hpnil
        exact absurd hpnil hpne


/-- At the walk root the resolution step yields only nulls. -/
theorem resolveParent_root {flags : DirFlags}
    {fd0 : List (List String × FolderEntry)} {cn : Bool}
    {fpt ppt0 ft0 : Option String}
    (h : resolveParent flags fd0 [] cn = some (fpt, ppt0, ft0)) :
    fpt = none ∧ ppt0 = none ∧ ft0 = none := by
  unfold resolveParent at h
  rw [if_pos rfl] at h
  simp only [Option.some.injEq, Prod.mk.injEq] at h
  exact ⟨h.1.symm, h.2.1.symm, h.2.2.symm⟩

/-- One directory of the second pass preserves the invariant. -/
theorem dirStep_invariant (flags : DirFlags) (pageOf : List String → DocPage)
    (contentFiles : List (List String)) (ign : List String → Bool)
    (fs : List FsEntry) (st : WalkState) (e : FsEntry) (st' : WalkState)
    (he : e ∈ fs) (hroot : RootPagesOk flags ign fs)
    (hinv : StInv flags fs st.folder_data st.pages)
    (h : dirStep flags pageOf contentFiles ign fs st e = some st') :
    StInv flags fs st'.folder_data st'.pages := by
  unfold dirStep at h
  by_cases hign : ign e.path
  · rw [if_pos hign] at h
    obtain rfl := Option.some.inj h
    exact hinv
  · rw [if_neg hign] at h
    simp only [] at h
    cases hres : resolveParent flags
        (fdSet st.folder_data e.path
          { n_files := (mdFilesOf ign e).length,
            content_file := folderContentFileOf contentFiles e.path,
            subdirNames := childNames fs e.path, title := none })
        e.path ((mdFilesOf ign e).length = 1 && flags.collapse_single_pages)
        with
    | none => rw [hres] at h; simp at h
    | some trip =>
      obtain ⟨fpt, ppt0, ft0⟩ := trip
      rw [hres] at h
      simp only [] at h
      obtain rfl := Option.some.inj h
      exact dirFinish_inv flags pageOf contentFiles fs st e
        (mdFilesOf ign e) (childNames fs e.path)
        (folderContentFileOf contentFiles e.path) _ fpt ppt0 ft0
        hinv.1 hinv.2
        (fdFind_fdSet_self _ _ _)
        (fun p hp => fdFind_fdSet_ne _ _ _ p hp)
        (resolveParent_backed flags fs st e _ _ he hinv hres)
        (resolveParent_shape hres)
        rfl
        (fun hnil => (resolveParent_root (hnil ▸ hres)).2.2)
        (fun hnil => by rw [hnil]; rfl)
        (fun hnil t hpo hdisj =>
          hroot (pagesOverrideOf_some hpo).1 hdisj e he hnil t
            (pagesOverrideOf_some hpo).2)

/-- The whole second pass preserves the invariant. -/
theorem walkList_invariant (flags : DirFlags) (pageOf : List String → DocPage)
    (contentFiles : List (List String)) (ign : List String → Bool)
    (fs : List FsEntry) (hroot : RootPagesOk flags ign fs) :
    ∀ (rest : List FsEntry) (st : WalkState),
    (∀ e ∈ rest, e ∈ fs) →
    StInv flags fs st.folder_data st.pages →
    ∀ st', walkList flags pageOf contentFiles ign fs rest st = some st' →
      StInv flags fs st'.folder_data st'.pages := by
  intro rest
  induction rest with
  | nil =>
    intro st _ hinv st' h
    unfold walkList at h
    obtain rfl := Option.some.inj h
    exact hinv
  | cons e tail ih =>
    intro st hsub hinv st' h
    unfold walkList at h
    cases hd : dirStep flags pageOf contentFiles ign fs st e with
    | none => rw [hd] at h; simp at h
    | some st1 =>
      rw [hd] at h
      simp only [] at h
      exact ih st1 (fun x hx => hsub x (by simp [hx]))
        (dirStep_invariant flags pageOf contentFiles ign fs st e st1
          (hsub e (by simp)) hroot hinv hd) st' h

/-- Under the root-`.pages` proviso, every successful directory run emits an
ancestry-closed page sequence. -/
theorem getPagesFromDirectory_linked (flags : DirFlags)
    (ign : List String → Bool) (pageOf : List String → DocPage)
    (fs : List FsEntry) (pages : List DirPage)
    (hroot : RootPagesOk flags ign fs)
    (h : getPagesFromDirectory flags ign pageOf fs = some pages) :
    pageLinks (dirPairs pages) := by
  unfold getPagesFromDirectory at h
  simp only [] at h
  cases hw : walkList flags pageOf (contentFilesOf ign fs) ign fs fs {} with
  | none => rw [hw] at h; simp at h
  | some st' =>
    rw [hw] at h
    have h2 : st'.pages = pages := by simpa using h
    rw [← h2]
    have hinit : StInv flags fs (WalkState.folder_data {}) (WalkState.pages {}) := by
      constructor
      · exact linkedPrefix_nil
      · intro p ent hent
        simp [fdFind] at hent
    exact ((walkList_invariant flags pageOf (contentFilesOf ign fs) ign fs
      hroot fs {} (fun _ hx => hx) hinit st' hw).1).pageLinks


theorem sumPairs_append (a b : List SumPage) :
    sumPairs (a ++ b) = sumPairs a ++ sumPairs b := by
  simp [sumPairs]

/-- A backed summary title names a pair in `sumPairs`. -/
theorem sumPairs_backed {pages : List SumPage} {pg : SumPage}
    (h : pg ∈ pages) :
    ∃ q ∈ sumPairs pages, q.1 = some pg.title := by
  exact ⟨(some pg.title, pg.parent_title),
    by simp [sumPairs]; exact ⟨pg, h, rfl, rfl⟩, rfl⟩

theorem processFuel_cons (ctx : SummaryCtx) (fuel : Nat)
    (pt : Option String) (us : Bool) (item : SummaryItem)
    (rest : List (Option String × Bool × SummaryItem)) :
    processFuel ctx (fuel + 1) ((pt, us, item) :: rest) =
      if item.isSep then processFuel ctx fuel rest
      else
        match processItemData ctx fuel us item with
        | (body, fpath, att, rel, pageTitle) =>
          { title := pageTitle, parent_title := pt, body := body,
            file_path := fpath, attachments := att,
            relative_links := rel } ::
          processFuel ctx fuel
            (item.children.map (fun c => (some pageTitle, false, c)) ++
              rest) := rfl

/-- The outline worklist preserves ancestry-closure: every worklist entry is
parented at an already-emitted page, and each processed item emits a page
before its children enter the worklist. -/
theorem processFuel_linked (ctx : SummaryCtx) :
    ∀ (fuel : Nat) (wl : List (Option String × Bool × SummaryItem))
      (acc : List SumPage),
    linkedPrefix (sumPairs acc) →
    (∀ q ∈ wl, q.1 = none ∨ ∃ pg ∈ acc, some pg.title = q.1) →
    linkedPrefix (sumPairs (acc ++ processFuel ctx fuel wl)) := by
  intro fuel
  induction fuel with
  | zero =>
    intro wl acc hacc hwl
    cases wl with
    | nil => simpa [processFuel] using hacc
    | cons q rest => simpa [processFuel] using hacc
  | succ fuel ih =>
    intro wl acc hacc hwl
    cases wl with
    | nil => simpa [processFuel] using hacc
    | cons q rest =>
      obtain ⟨pt, us, item⟩ := q
      by_cases hsep : item.isSep
      · rw [show processFuel ctx (fuel + 1) ((pt, us, item) :: rest) =
            processFuel ctx fuel rest by
          rw [processFuel_cons, if_pos hsep]]
        exact ih rest acc hacc (fun q hq => hwl q (by simp [hq]))
      · cases hpd : processItemData ctx fuel us item with
        | mk body rest4 =>
          obtain ⟨fpath, att, rel, pageTitle⟩ := rest4
          rw [show processFuel ctx (fuel + 1) ((pt, us, item) :: rest) =
              { title := pageTitle, parent_title := pt, body := body,
                file_path := fpath, attachments := att,
                relative_links := rel } ::
              processFuel ctx fuel
                (item.children.map (fun c => (some pageTitle, false, c)) ++
                  rest) by
            rw [processFuel_cons, if_neg hsep, hpd]]
          set pg : SumPage :=
            { title := pageTitle, parent_title := pt, body := body,
              file_path := fpath, attachments := att,
              relative_links := rel } with hpg
          have hstep : linkedPrefix (sumPairs (acc ++ [pg])) := by
            rw [sumPairs_append]
            apply linkedPrefix_append_one hacc
            rcases hwl (pt, us, item) (by simp) with hn | ⟨pq, hpq, hpq1⟩
            · left
              simp at hn
              simp [sumPairs, hpg, hn]
            · right
              obtain ⟨r, hr, hr1⟩ := sumPairs_backed hpq
              refine ⟨r, hr, ?_⟩
              simp at hpq1
              simp [sumPairs, hpg, hr1, hpq1]
          have hall : acc ++ pg :: processFuel ctx fuel
              (item.children.map (fun c => (some pageTitle, false, c)) ++
                rest) =
              (acc ++ [pg]) ++ processFuel ctx fuel
                (item.children.map (fun c => (some pageTitle, false, c)) ++
                  rest) := by simp
          rw [hall]
          apply ih _ _ hstep
          intro q hq
          rcases List.mem_append.mp hq with hq1 | hq2
          · obtain ⟨c, _, hc⟩ := List.mem_map.mp hq1
            right
            refine ⟨pg, by simp, ?_⟩
            rw [← hc]
          · rcases hwl q (by simp [hq2]) with hn | ⟨pq, hpq, hpq1⟩
            · exact Or.inl hn
            · exact Or.inr ⟨pq, by simp [hpq], hpq1⟩

/-- Every summary run emits an ancestry-closed page sequence. -/
theorem getPagesFromSummary_linked (ctx : SummaryCtx) (lines : List String) :
    pageLinks (sumPairs (getPagesFromSummary ctx lines)) := by
  unfold getPagesFromSummary
  cases hitems : parseSummaryMd lines with
  | nil =>
    simp only []
    intro i
    exact absurd i.isLt (by simp [sumPairs])
  | cons it rest =>
    simp only []
    have h := processFuel_linked ctx lines.length
      ((none, it.isPart && it.path.isNone, it) ::
        rest.map (fun r => (none, false, r))) [] linkedPrefix_nil ?_
    · simpa [sumPairs] using h.pageLinks
    · intro q hq
      rcases List.mem_cons.mp hq with hq1 | hq2
      · exact Or.inl (by rw [hq1])
      · obtain ⟨r, _, hr⟩ := List.mem_map.mp hq2
        exact Or.inl (by rw [← hr])


/-- C2 (amended): every Page sequence returned by the summary assembler,
and every Page sequence returned by a completed run of the directory
assembler whose walk root does not combine a `.pages`-declared title under
`use_pages_file` with `skip_empty`/`collapse_empty` and an empty root
(`RootPagesOk`), has every `parent_title` either null or equal to the
`title` of another Page of the same sequence. -/
theorem c2_parent_linkage (flags : DirFlags) (ign : List String → Bool)
    (pageOf : List String → DocPage) (fs : List FsEntry)
    (pages : List DirPage) (ctx : SummaryCtx) (lines : List String)
    (hroot : RootPagesOk flags ign fs)
    (h : getPagesFromDirectory flags ign pageOf fs = some pages) :
    pageLinks (dirPairs pages) ∧
    pageLinks (sumPairs (getPagesFromSummary ctx lines)) :=
  ⟨getPagesFromDirectory_linked flags ign pageOf fs pages hroot h,
   getPagesFromSummary_linked ctx lines⟩

theorem c2_parent_linkage_witness :
    pageLinks (dirPairs
      [{ title := some "A", parent_title := none, body := "",
         file_path := some ["a.md"], attachments := [],
         relative_links := [] }]) ∧
    pageLinks (sumPairs (getPagesFromSummary {} [])) :=
  c2_parent_linkage {} (fun _ => false) (fun _ => { title := "A" })
    [⟨[], ["a.md"], none⟩]
    [{ title := some "A", parent_title := none, body := "",
       file_path := some ["a.md"], attachments := [],
       relative_links := [] }] {} []
    (by intro hu; exact absurd hu (by decide))
    (by decide)


/-- With `collapse_single_pages`, the resolution step routes the folder
parent title into `parent_page_title` and records no folder title. -/
theorem resolveParent_collapse {flags : DirFlags}
    {fd0 : List (List String × FolderEntry)} {path : List String}
    {fpt ppt0 ft0 : Option String}
    (h : resolveParent flags fd0 path true = some (fpt, ppt0, ft0)) :
    ppt0 = fpt ∧ ft0 = none := by
  unfold resolveParent at h
  by_cases hp : path = []
  · rw [if_pos hp] at h
    simp only [Option.some.injEq, Prod.mk.injEq] at h
    exact ⟨h.2.1.symm.trans h.1, h.2.2.symm⟩
  · rw [if_neg hp] at h
    simp only [] at h
    cases hfe : fdFind fd0
        (if flags.skip_empty || flags.collapse_empty then
          findNonEmptyParentPath fd0 path else path.dropLast) with
    | none => rw [hfe] at h; simp at h
    | some pe =>
      rw [hfe] at h
      simp only [if_pos trivial] at h
      simp only [Option.some.injEq, Prod.mk.injEq] at h
      exact ⟨h.2.1.symm.trans h.1, h.2.2.symm⟩

theorem collapse_single_dirStep (flags : DirFlags) (pageOf : List String → DocPage)
    (contentFiles : List (List String)) (ign : List String → Bool)
    (fs : List FsEntry) (st : WalkState) (e : FsEntry) (st' : WalkState)
    (f : List String)
    (hcsp : flags.collapse_single_pages = true)
    (hign : ign e.path = false)
    (hone : mdFilesOf ign e = [f])
    (hnofcf : folderContentFileOf contentFiles e.path = none)
    (hnopo : pagesOverrideOf flags e.pagesTitle = none)
    (hcf : contentFiles.contains f = false)
    (h : dirStep flags pageOf contentFiles ign fs st e = some st') :
    ∃ fpt,
      resolveParent flags (fdSet st.folder_data e.path
        { n_files := 1, content_file := none,
          subdirNames := childNames fs e.path, title := none })
        e.path true = some (fpt, fpt, none) ∧
      st'.pages = st.pages ++
        [{ title := some (pageOf f).title, parent_title := fpt,
           body := (pageOf f).body, file_path := some f,
           attachments := (pageOf f).attachments,
           relative_links := (pageOf f).relative_links }] ∧
      fdFind st'.folder_data e.path = some
        { n_files := 1, content_file := none,
          subdirNames := childNames fs e.path,
          title := some (pageOf f).title } := by
  unfold dirStep at h
  rw [if_neg (by rw [hign]; simp)] at h
  simp only [] at h
  rw [hone, hnofcf] at h
  rw [show (decide (([f] : List (List String)).length = 1) &&
      flags.collapse_single_pages) = true by rw [hcsp]; rfl] at h
  simp only [List.length_singleton] at h
  cases hres : resolveParent flags (fdSet st.folder_data e.path
      { n_files := 1, content_file := none,
        subdirNames := childNames fs e.path, title := none }) e.path true with
  | none => rw [hres] at h; simp at h
  | some trip =>
    obtain ⟨fpt, ppt0, ft0⟩ := trip
    obtain ⟨hp0, hf0⟩ := resolveParent_collapse hres
    subst hp0
    subst hf0
    rw [hres] at h
    simp only [] at h
    obtain rfl := Option.some.inj h
    refine ⟨ppt0, rfl, ?_, ?_⟩
    · unfold dirFinish
      rw [hnopo]
      simp only []
      unfold dirCore
      simp only [Option.isSome_none, Bool.false_and, Bool.false_eq_true,
        if_false, List.foldl_cons, List.foldl_nil]
      unfold docStep
      rw [if_neg (show ¬((none : Option (List String)) = some f) by simp)]
      rw [if_neg (show ¬(contentFiles.contains f = true) by rw [hcf]; simp)]
    · unfold dirFinish
      rw [hnopo]
      simp only []
      unfold dirCore
      simp only [Option.isSome_none, Bool.false_and, Bool.false_eq_true,
        if_false, List.foldl_cons, List.foldl_nil]
      unfold docStep
      rw [if_neg (show ¬((none : Option (List String)) = some f) by simp)]
      rw [if_neg (show ¬(contentFiles.contains f = true) by rw [hcf]; simp)]
      rw [show (decide (([f] : List (List String)).length = 1) &&
          flags.collapse_single_pages) = true by rw [hcsp]; rfl]
      simp only [if_true]
      rw [fdFind_fdSetTitle_self, fdFind_fdSetTitle_self, fdFind_fdSet_self]
      rfl


/-- C3 (amended): when a walked directory holds exactly one markdown
document, `collapse_single_pages` is on, no `.pages` title override applies,
and the document is not associated to any folder as its content file, the
directory loop emits for that directory exactly the document\x27s own Page,
parented at the resolved folder parent title, and records the document\x27s
title as the folder\x27s — so descendants are parented under it; in
particular `docs/guide/page.md` alone under `guide/` yields one page
parented at the root\x27s (null) title, never pages for both `guide` and
`page`. -/
theorem c3_collapse_single :
    (∀ (flags : DirFlags) (pageOf : List String → DocPage)
       (contentFiles : List (List String)) (ign : List String → Bool)
       (fs : List FsEntry) (st : WalkState) (e : FsEntry) (st' : WalkState)
       (f : List String),
      flags.collapse_single_pages = true →
      ign e.path = false →
      mdFilesOf ign e = [f] →
      folderContentFileOf contentFiles e.path = none →
      pagesOverrideOf flags e.pagesTitle = none →
      contentFiles.contains f = false →
      dirStep flags pageOf contentFiles ign fs st e = some st' →
      ∃ fpt,
        resolveParent flags (fdSet st.folder_data e.path
          { n_files := 1, content_file := none,
            subdirNames := childNames fs e.path, title := none })
          e.path true = some (fpt, fpt, none) ∧
        st'.pages = st.pages ++
          [{ title := some (pageOf f).title, parent_title := fpt,
             body := (pageOf f).body, file_path := some f,
             attachments := (pageOf f).attachments,
             relative_links := (pageOf f).relative_links }] ∧
        fdFind st'.folder_data e.path = some
          { n_files := 1, content_file := none,
            subdirNames := childNames fs e.path,
            title := some (pageOf f).title }) ∧
    getPagesFromDirectory { collapse_single_pages := true }
      (fun _ => false) (fun _ => { title := "Page", body := "B" })
      [⟨[], [], none⟩, ⟨["guide"], ["page.md"], none⟩] = some
      [{ title := some "Page", parent_title := none, body := "B",
         file_path := some ["guide", "page.md"], attachments := [],
         relative_links := [] }] :=
  ⟨fun flags pageOf contentFiles ign fs st e st' f h1 h2 h3 h4 h5 h6 h7 =>
    collapse_single_dirStep flags pageOf contentFiles ign fs st e st' f
      h1 h2 h3 h4 h5 h6 h7,
   by decide⟩

theorem c3_collapse_single_witness :
    ∃ fpt,
      resolveParent { collapse_single_pages := true }
          (fdSet [([], ⟨0, none, ["guide"], none⟩)] ["guide"]
            ⟨1, none,
              childNames [⟨[], [], none⟩, ⟨["guide"], ["page.md"], none⟩]
                ["guide"], none⟩)
          ["guide"] true = some (fpt, fpt, none) ∧
      (WalkState.pages
          ⟨[([], ⟨0, none, ["guide"], none⟩),
            (["guide"], ⟨1, none, [], some "Page"⟩)],
           [⟨some "Page", none, "B", some ["guide", "page.md"], [], []⟩]⟩) =
        [] ++
        [⟨some ((fun _ : List String =>
              ({ title := "Page", body := "B" } : DocPage))
                ["guide", "page.md"]).title,
          fpt,
          ((fun _ : List String =>
              ({ title := "Page", body := "B" } : DocPage))
                ["guide", "page.md"]).body,
          some ["guide", "page.md"],
          ((fun _ : List String =>
              ({ title := "Page", body := "B" } : DocPage))
                ["guide", "page.md"]).attachments,
          ((fun _ : List String =>
              ({ title := "Page", body := "B" } : DocPage))
                ["guide", "page.md"]).relative_links⟩] ∧
      fdFind (WalkState.folder_data
          ⟨[([], ⟨0, none, ["guide"], none⟩),
            (["guide"], ⟨1, none, [], some "Page"⟩)],
           [⟨some "Page", none, "B", some ["guide", "page.md"], [], []⟩]⟩)
          ["guide"] = some
        ⟨1, none,
          childNames [⟨[], [], none⟩, ⟨["guide"], ["page.md"], none⟩]
            ["guide"], some "Page"⟩ :=
  c3_collapse_single.1 { collapse_single_pages := true }
    (fun _ => { title := "Page", body := "B" }) [] (fun _ => false)
    [⟨[], [], none⟩, ⟨["guide"], ["page.md"], none⟩]
    ⟨[([], ⟨0, none, ["guide"], none⟩)], []⟩
    ⟨["guide"], ["page.md"], none⟩
    ⟨[([], ⟨0, none, ["guide"], none⟩),
      (["guide"], ⟨1, none, [], some "Page"⟩)],
     [⟨some "Page", none, "B", some ["guide", "page.md"], [], []⟩]⟩
    ["guide", "page.md"]
    rfl rfl (by decide) (by decide) rfl rfl (by decide)


theorem addChildren_nil (it : SummaryItem) : it.addChildren [] = it := by
  cases it with
  | mk t p b sep c => simp [SummaryItem.addChildren]

theorem addChildren_singleton (it : SummaryItem) (k : SummaryItem) :
    it.addChildren [k] = it.addChild k := by
  cases it with
  | mk t p b sep c => simp [SummaryItem.addChild, SummaryItem.addChildren]

theorem addChild_addChildren (it : SummaryItem) (k : SummaryItem)
    (ks : List SummaryItem) :
    (it.addChild k).addChildren ks = it.addChildren (k :: ks) := by
  cases it with
  | mk t p b sep c => simp [SummaryItem.addChild, SummaryItem.addChildren]

theorem buildForest_nil : buildForest [] = [] := by
  simp [buildForest]

theorem buildForest_cons (l : Nat) (it : SummaryItem)
    (rest : List (Nat × SummaryItem)) :
    buildForest ((l, it) :: rest) =
      it.addChildren (buildForest (rest.takeWhile (fun e => l < e.1))) ::
        buildForest (rest.dropWhile (fun e => l < e.1)) := by
  simp [buildForest]

theorem closeSpineOnce_spine_le (st : ParseState) (t : Nat)
    (x : SummaryItem) (rest : List (Nat × SummaryItem))
    (h : st.spine = (t, x) :: rest) :
    (closeSpineOnce st).spine.length ≤ rest.length := by
  obtain ⟨done, part, spine⟩ := st
  simp only [] at h
  subst h
  cases rest with
  | nil => cases part <;> simp [closeSpineOnce]
  | cons hd tl => simp [closeSpineOnce]

theorem closeSpineFromFuel_zero (level : Nat) (st : ParseState) :
    closeSpineFromFuel level 0 st = st := rfl

theorem closeSpineFromFuel_succ (level f : Nat) (st : ParseState) :
    closeSpineFromFuel level (f + 1) st =
      match st.spine with
      | [] => st
      | (l, _) :: _ =>
        if l ≥ level then closeSpineFromFuel level f (closeSpineOnce st)
        else st := rfl

theorem closeSpineAllFuel_zero (st : ParseState) :
    closeSpineAllFuel 0 st = st := rfl

theorem closeSpineAllFuel_succ (f : Nat) (st : ParseState) :
    closeSpineAllFuel (f + 1) st =
      match st.spine with
      | [] => st
      | _ :: _ => closeSpineAllFuel f (closeSpineOnce st) := rfl

theorem closeSpineFromFuel_ge (level : Nat) :
    ∀ (f : Nat) (st : ParseState), st.spine.length ≤ f →
      closeSpineFromFuel level f st = closeSpineFrom level st := by
  intro f
  induction f using Nat.strong_induction_on with
  | _ f ih =>
    intro st h
    cases f with
    | zero =>
      have hnil : st.spine = [] := List.length_eq_zero.mp (Nat.le_zero.mp h)
      unfold closeSpineFrom
      rw [hnil]
      simp only [List.length_nil]
    | succ f =>
      cases hsp : st.spine with
      | nil =>
        unfold closeSpineFrom
        rw [hsp]
        simp only [List.length_nil]
        rw [closeSpineFromFuel_succ, hsp, closeSpineFromFuel_zero]
      | cons hd rest =>
        obtain ⟨t, x⟩ := hd
        have hrest : rest.length ≤ f := by
          rw [hsp] at h
          simpa using Nat.le_of_succ_le_succ h
        have hlen : (closeSpineOnce st).spine.length ≤ rest.length :=
          closeSpineOnce_spine_le st t x rest hsp
        by_cases ht : t ≥ level
        · have h1 : closeSpineFromFuel level (f + 1) st =
              closeSpineFromFuel level f (closeSpineOnce st) := by
            rw [closeSpineFromFuel_succ, hsp]
            simp only []
            rw [if_pos ht]
          have h2 : closeSpineFrom level st =
              closeSpineFromFuel level rest.length (closeSpineOnce st) := by
            unfold closeSpineFrom
            rw [hsp]
            simp only [List.length_cons]
            rw [closeSpineFromFuel_succ, hsp]
            simp only []
            rw [if_pos ht]
          rw [h1, h2,
            ih f (Nat.lt_succ_self f) (closeSpineOnce st)
              (le_trans hlen hrest),
            ih rest.length (Nat.lt_succ_of_le hrest) (closeSpineOnce st)
              hlen]
        · have h1 : closeSpineFromFuel level (f + 1) st = st := by
            rw [closeSpineFromFuel_succ, hsp]
            simp only []
            rw [if_neg ht]
          have h2 : closeSpineFrom level st = st := by
            unfold closeSpineFrom
            rw [hsp]
            simp only [List.length_cons]
            rw [closeSpineFromFuel_succ, hsp]
            simp only []
            rw [if_neg ht]
          rw [h1, h2]

theorem closeSpineAllFuel_ge :
    ∀ (f : Nat) (st : ParseState), st.spine.length ≤ f →
      closeSpineAllFuel f st = closeSpineAll st := by
  intro f
  induction f using Nat.strong_induction_on with
  | _ f ih =>
    intro st h
    cases f with
    | zero =>
      have hnil : st.spine = [] := List.length_eq_zero.mp (Nat.le_zero.mp h)
      unfold closeSpineAll
      rw [hnil]
      simp only [List.length_nil]
    | succ f =>
      cases hsp : st.spine with
      | nil =>
        unfold closeSpineAll
        rw [hsp]
        simp only [List.length_nil]
        rw [closeSpineAllFuel_succ, hsp, closeSpineAllFuel_zero]
      | cons hd rest =>
        obtain ⟨t, x⟩ := hd
        have hrest : rest.length ≤ f := by
          rw [hsp] at h
          simpa using Nat.le_of_succ_le_succ h
        have hlen : (closeSpineOnce st).spine.length ≤ rest.length :=
          closeSpineOnce_spine_le st t x rest hsp
        have h1 : closeSpineAllFuel (f + 1) st =
            closeSpineAllFuel f (closeSpineOnce st) := by
          rw [closeSpineAllFuel_succ, hsp]
        have h2 : closeSpineAll st =
            closeSpineAllFuel rest.length (closeSpineOnce st) := by
          unfold closeSpineAll
          rw [hsp]
          simp only [List.length_cons]
          rw [closeSpineAllFuel_succ, hsp]
        rw [h1, h2,
          ih f (Nat.lt_succ_self f) (closeSpineOnce st)
            (le_trans hlen hrest),
          ih rest.length (Nat.lt_succ_of_le hrest) (closeSpineOnce st) hlen]

/-- The spine-closing loop: stop cases and pop case. -/
theorem closeSpineFrom_nil (level : Nat) (st : ParseState)
    (h : st.spine = []) : closeSpineFrom level st = st := by
  unfold closeSpineFrom
  rw [h]
  simp only [List.length_nil]
  exact closeSpineFromFuel_zero level st

theorem closeSpineFrom_stop (level t : Nat) (x : SummaryItem)
    (rest : List (Nat × SummaryItem)) (st : ParseState)
    (h : st.spine = (t, x) :: rest) (ht : ¬ t ≥ level) :
    closeSpineFrom level st = st := by
  unfold closeSpineFrom
  rw [h]
  simp only [List.length_cons]
  rw [closeSpineFromFuel_succ, h]
  simp only []
  rw [if_neg ht]

theorem closeSpineFrom_pop (level t : Nat) (x : SummaryItem)
    (rest : List (Nat × SummaryItem)) (st : ParseState)
    (h : st.spine = (t, x) :: rest) (ht : t ≥ level) :
    closeSpineFrom level st = closeSpineFrom level (closeSpineOnce st) := by
  conv_lhs => unfold closeSpineFrom
  rw [h]
  simp only [List.length_cons]
  rw [closeSpineFromFuel_succ, h]
  simp only []
  rw [if_pos ht]
  exact closeSpineFromFuel_ge level rest.length (closeSpineOnce st)
    (closeSpineOnce_spine_le st t x rest h)

theorem closeSpineAll_nil (st : ParseState) (h : st.spine = []) :
    closeSpineAll st = st := by
  unfold closeSpineAll
  rw [h]
  simp only [List.length_nil]
  exact closeSpineAllFuel_zero st

theorem closeSpineAll_pop (t : Nat) (x : SummaryItem)
    (rest : List (Nat × SummaryItem)) (st : ParseState)
    (h : st.spine = (t, x) :: rest) :
    closeSpineAll st = closeSpineAll (closeSpineOnce st) := by
  conv_lhs => unfold closeSpineAll
  rw [h]
  simp only [List.length_cons]
  rw [closeSpineAllFuel_succ, h]
  exact closeSpineAllFuel_ge rest.length (closeSpineOnce st)
    (closeSpineOnce_spine_le st t x rest h)

/-- Closing to a lower threshold subsumes closing to a higher one. -/
theorem closeSpineFrom_comp (level hi : Nat) (hle : level ≤ hi) :
    ∀ (st : ParseState),
      closeSpineFrom level (closeSpineFrom hi st) = closeSpineFrom level st := by
  have H : ∀ (n : Nat) (st : ParseState), st.spine.length = n →
      closeSpineFrom level (closeSpineFrom hi st) = closeSpineFrom level st := by
    intro n
    induction n using Nat.strong_induction_on with
    | _ n ih =>
    intro st hn
    cases hsp : st.spine with
    | nil => rw [closeSpineFrom_nil hi st hsp]
    | cons hd rest =>
      obtain ⟨t, x⟩ := hd
      by_cases ht : t ≥ hi
      · rw [closeSpineFrom_pop hi t x rest st hsp ht,
          closeSpineFrom_pop level t x rest st hsp (le_trans hle ht)]
        have hlen : (closeSpineOnce st).spine.length < n := by
          rw [← hn, hsp]
          simp only [List.length_cons]
          exact Nat.lt_succ_of_le (closeSpineOnce_spine_le st t x rest hsp)
        exact ih (closeSpineOnce st).spine.length hlen (closeSpineOnce st) rfl
      · rw [closeSpineFrom_stop hi t x rest st hsp ht]
  intro st
  exact H st.spine.length st rfl

/-- Closing everything after a partial close is closing everything. -/
theorem closeSpineAll_comp (hi : Nat) :
    ∀ (st : ParseState),
      closeSpineAll (closeSpineFrom hi st) = closeSpineAll st := by
  have H : ∀ (n : Nat) (st : ParseState), st.spine.length = n →
      closeSpineAll (closeSpineFrom hi st) = closeSpineAll st := by
    intro n
    induction n using Nat.strong_induction_on with
    | _ n ih =>
    intro st hn
    cases hsp : st.spine with
    | nil => rw [closeSpineFrom_nil hi st hsp]
    | cons hd rest =>
      obtain ⟨t, x⟩ := hd
      by_cases ht : t ≥ hi
      · rw [closeSpineFrom_pop hi t x rest st hsp ht,
          closeSpineAll_pop t x rest st hsp]
        have hlen : (closeSpineOnce st).spine.length < n := by
          rw [← hn, hsp]
          simp only [List.length_cons]
          exact Nat.lt_succ_of_le (closeSpineOnce_spine_le st t x rest hsp)
        exact ih (closeSpineOnce st).spine.length hlen (closeSpineOnce st) rfl
      · rw [closeSpineFrom_stop hi t x rest st hsp ht]
  intro st
  exact H st.spine.length st rfl


theorem mem_takeWhile_pred {α : Type} (p : α → Bool) :
    ∀ (l : List α) (x : α), x ∈ l.takeWhile p → p x = true := by
  intro l
  induction l with
  | nil => intro x h; simp [List.takeWhile] at h
  | cons a t ih =>
    intro x h
    by_cases hp : p a
    · rw [List.takeWhile_cons_of_pos hp] at h
      rcases List.mem_cons.mp h with rfl | h2
      · exact hp
      · exact ih x h2
    · rw [List.takeWhile_cons_of_neg hp] at h
      simp at h

theorem pushEntry_eq (level : Nat) (x : SummaryItem) (st1 st2 : ParseState)
    (h : closeSpineFrom level st1 = closeSpineFrom level st2) :
    pushEntry level x st1 = pushEntry level x st2 := by
  unfold pushEntry
  rw [h]

theorem dropWhile_head_false {α : Type} (p : α → Bool) :
    ∀ (l : List α) (x : α) (xs : List α),
    l.dropWhile p = x :: xs → p x = false := by
  intro l
  induction l with
  | nil => intro x xs h; simp [List.dropWhile] at h
  | cons a t ih =>
    intro x xs h
    by_cases hp : p a
    · rw [List.dropWhile_cons_of_pos hp] at h
      exact ih x xs h
    · rw [List.dropWhile_cons_of_neg hp] at h
      obtain ⟨rfl, _⟩ := List.cons.inj h
      simpa using hp

/-- The open-entry region: while all following entries sit strictly deeper
than the open entry at `l`, they build exactly that entry\x27s
`buildForest` subtree, and closing back to level `l + 1` re-exposes it. -/
theorem region_fold :
    ∀ (n : Nat) (ws : List (Nat × SummaryItem)), ws.length = n →
    ∀ (l : Nat) (it : SummaryItem) (done : List SummaryItem)
      (part : Option SummaryItem) (spineRest : List (Nat × SummaryItem)),
    (∀ e ∈ ws, l < e.1) →
    closeSpineFrom (l + 1)
      (ws.foldl (fun st e => pushEntry e.1 e.2 st)
        ⟨done, part, (l, it) :: spineRest⟩) =
      ⟨done, part, (l, it.addChildren (buildForest ws)) :: spineRest⟩ := by
  intro n
  induction n using Nat.strong_induction_on with
  | _ n ih =>
  intro ws hn l it done part spineRest hdeep
  cases ws with
  | nil =>
    rw [List.foldl_nil, buildForest_nil, addChildren_nil]
    exact closeSpineFrom_stop (l + 1) l it spineRest _ rfl (by omega)
  | cons e1 rest =>
    obtain ⟨l1, it1⟩ := e1
    have hl1 : l < l1 := hdeep (l1, it1) (by simp)
    have hsplit : rest = rest.takeWhile (fun e => l1 < e.1) ++
        rest.dropWhile (fun e => l1 < e.1) :=
      (List.takeWhile_append_dropWhile _ _).symm
    have hstep1 : pushEntry l1 it1 ⟨done, part, (l, it) :: spineRest⟩ =
        ⟨done, part, (l1, it1) :: (l, it) :: spineRest⟩ := by
      unfold pushEntry
      rw [closeSpineFrom_stop l1 l it spineRest _ rfl (by omega)]
    have hbelow_deep : ∀ e ∈ rest.takeWhile (fun e => l1 < e.1), l1 < e.1 := by
      intro e he
      exact of_decide_eq_true (mem_takeWhile_pred _ rest e he)
    have hlb : (rest.takeWhile (fun e => l1 < e.1)).length < n := by
      rw [← hn]
      simp only [List.length_cons]
      exact Nat.lt_succ_of_le
        (List.IsPrefix.length_le (List.takeWhile_prefix _))
    have hIH1 := ih (rest.takeWhile (fun e => l1 < e.1)).length hlb
      (rest.takeWhile (fun e => l1 < e.1)) rfl l1 it1 done part
      ((l, it) :: spineRest) hbelow_deep
    rw [List.foldl_cons, hstep1]
    conv_lhs => rw [hsplit]
    rw [List.foldl_append]
    rw [buildForest_cons]
    cases hafter : rest.dropWhile (fun e => l1 < e.1) with
    | nil =>
      rw [List.foldl_nil]
      rw [← closeSpineFrom_comp (l + 1) (l1 + 1) (by omega), hIH1]
      rw [closeSpineFrom_pop (l + 1) l1 _ ((l, it) :: spineRest) _ rfl
        (by omega)]
      rw [show closeSpineOnce ⟨done, part,
          (l1, it1.addChildren (buildForest
            (rest.takeWhile (fun e => l1 < e.1)))) ::
            (l, it) :: spineRest⟩ =
          ⟨done, part, (l, it.addChild (it1.addChildren (buildForest
            (rest.takeWhile (fun e => l1 < e.1))))) :: spineRest⟩ from rfl]
      rw [closeSpineFrom_stop (l + 1) l _ spineRest _ rfl (by omega)]
      rw [buildForest_nil, addChildren_singleton]
    | cons ea after2 =>
      obtain ⟨la, ita⟩ := ea
      have hla_le : la ≤ l1 := by
        have := dropWhile_head_false (fun e => decide (l1 < e.1)) rest
          (la, ita) after2 hafter
        simpa using this
      have hla_gt : l < la := by
        refine hdeep (la, ita) ?_
        rw [List.mem_cons]
        right
        rw [hsplit, hafter]
        exact List.mem_append_right _ (by simp)
      have hclose : closeSpineFrom la
          ((rest.takeWhile (fun e => l1 < e.1)).foldl
            (fun st e => pushEntry e.1 e.2 st)
            ⟨done, part, (l1, it1) :: (l, it) :: spineRest⟩) =
          ⟨done, part, (l, it.addChild (it1.addChildren (buildForest
            (rest.takeWhile (fun e => l1 < e.1))))) :: spineRest⟩ := by
        rw [← closeSpineFrom_comp la (l1 + 1) (by omega), hIH1]
        rw [closeSpineFrom_pop la l1 _ ((l, it) :: spineRest) _ rfl
          (by omega)]
        rw [show closeSpineOnce ⟨done, part,
            (l1, it1.addChildren (buildForest
              (rest.takeWhile (fun e => l1 < e.1)))) ::
              (l, it) :: spineRest⟩ =
            ⟨done, part, (l, it.addChild (it1.addChildren (buildForest
              (rest.takeWhile (fun e => l1 < e.1))))) :: spineRest⟩ from rfl]
        exact closeSpineFrom_stop la l _ spineRest _ rfl (by omega)
      have hstepa : pushEntry la ita
          ((rest.takeWhile (fun e => l1 < e.1)).foldl
            (fun st e => pushEntry e.1 e.2 st)
            ⟨done, part, (l1, it1) :: (l, it) :: spineRest⟩) =
          pushEntry la ita
          ⟨done, part, (l, it.addChild (it1.addChildren (buildForest
            (rest.takeWhile (fun e => l1 < e.1))))) :: spineRest⟩ := by
        refine pushEntry_eq la ita _ _ ?_
        rw [hclose, closeSpineFrom_stop la l _ spineRest _ rfl (by omega)]
      rw [List.foldl_cons]
      simp only []
      rw [hstepa]
      have hafter_deep : ∀ e ∈ (la, ita) :: after2, l < e.1 := by
        intro e he
        refine hdeep e ?_
        rw [List.mem_cons]
        right
        rw [hsplit, hafter]
        exact List.mem_append_right _ he
      have hla2 : ((la, ita) :: after2).length < n := by
        rw [← hafter, ← hn]
        simp only [List.length_cons]
        exact Nat.lt_succ_of_le
          (List.Sublist.length_le (List.dropWhile_sublist _))
      have hIH2 := ih ((la, ita) :: after2).length hla2 ((la, ita) :: after2)
        rfl l (it.addChild (it1.addChildren (buildForest
          (rest.takeWhile (fun e => l1 < e.1))))) done part spineRest
        hafter_deep
      rw [List.foldl_cons] at hIH2
      simp only [] at hIH2
      rw [hIH2, addChild_addChildren]


/-- Folding numbered entries from a closed state and closing at the end
yields exactly the nearest-shallower forest of the entries. -/
theorem pushFold_buildForest :
    ∀ (n : Nat) (ws : List (Nat × SummaryItem)), ws.length = n →
    ∀ (done : List SummaryItem),
    (closeSpineAll (ws.foldl (fun st e => pushEntry e.1 e.2 st)
      ⟨done, none, []⟩)).done = done ++ buildForest ws := by
  intro n
  induction n using Nat.strong_induction_on with
  | _ n ih =>
  intro ws hn done
  cases ws with
  | nil =>
    rw [List.foldl_nil, closeSpineAll_nil _ rfl, buildForest_nil]
    simp
  | cons e1 rest =>
    obtain ⟨l, it⟩ := e1
    have hstep1 : pushEntry l it ⟨done, none, []⟩ =
        ⟨done, none, [(l, it)]⟩ := by
      unfold pushEntry
      rw [closeSpineFrom_nil l _ rfl]
    have hsplit : rest = rest.takeWhile (fun e => l < e.1) ++
        rest.dropWhile (fun e => l < e.1) :=
      (List.takeWhile_append_dropWhile _ _).symm
    have hbelow_deep : ∀ e ∈ rest.takeWhile (fun e => l < e.1), l < e.1 := by
      intro e he
      exact of_decide_eq_true (mem_takeWhile_pred _ rest e he)
    have hIH1 := region_fold (rest.takeWhile (fun e => l < e.1)).length
      (rest.takeWhile (fun e => l < e.1)) rfl l it done none []
      hbelow_deep
    rw [List.foldl_cons]
    simp only []
    rw [hstep1]
    conv_lhs => rw [hsplit]
    rw [List.foldl_append]
    rw [buildForest_cons]
    cases hafter : rest.dropWhile (fun e => l < e.1) with
    | nil =>
      rw [List.foldl_nil]
      rw [← closeSpineAll_comp (l + 1), hIH1]
      rw [closeSpineAll_pop l _ [] _ rfl]
      rw [show closeSpineOnce ⟨done, none,
          [(l, it.addChildren (buildForest
            (rest.takeWhile (fun e => l < e.1))))]⟩ =
          ⟨done ++ [it.addChildren (buildForest
            (rest.takeWhile (fun e => l < e.1)))], none, []⟩ from rfl]
      rw [closeSpineAll_nil _ rfl, buildForest_nil]
    | cons ea after2 =>
      obtain ⟨la, ita⟩ := ea
      have hla_le : la ≤ l := by
        have := dropWhile_head_false (fun e => decide (l < e.1)) rest
          (la, ita) after2 hafter
        simpa using this
      have hclose : closeSpineFrom la
          ((rest.takeWhile (fun e => l < e.1)).foldl
            (fun st e => pushEntry e.1 e.2 st) ⟨done, none, [(l, it)]⟩) =
          ⟨done ++ [it.addChildren (buildForest
            (rest.takeWhile (fun e => l < e.1)))], none, []⟩ := by
        rw [← closeSpineFrom_comp la (l + 1) (by omega), hIH1]
        rw [closeSpineFrom_pop la l _ [] _ rfl (by omega)]
        rw [show closeSpineOnce ⟨done, none,
            [(l, it.addChildren (buildForest
              (rest.takeWhile (fun e => l < e.1))))]⟩ =
            ⟨done ++ [it.addChildren (buildForest
              (rest.takeWhile (fun e => l < e.1)))], none, []⟩ from rfl]
        exact closeSpineFrom_nil la _ rfl
      have hstepa : pushEntry la ita
          ((rest.takeWhile (fun e => l < e.1)).foldl
            (fun st e => pushEntry e.1 e.2 st) ⟨done, none, [(l, it)]⟩) =
          pushEntry la ita
          ⟨done ++ [it.addChildren (buildForest
            (rest.takeWhile (fun e => l < e.1)))], none, []⟩ := by
        refine pushEntry_eq la ita _ _ ?_
        rw [hclose, closeSpineFrom_nil la _ rfl]
      rw [List.foldl_cons]
      simp only []
      rw [hstepa]
      have hla2 : ((la, ita) :: after2).length < n := by
        rw [← hafter, ← hn]
        simp only [List.length_cons]
        exact Nat.lt_succ_of_le
          (List.Sublist.length_le (List.dropWhile_sublist _))
      have hIH2 := ih ((la, ita) :: after2).length hla2 ((la, ita) :: after2)
        rfl (done ++ [it.addChildren (buildForest
          (rest.takeWhile (fun e => l < e.1)))])
      rw [List.foldl_cons] at hIH2
      simp only [] at hIH2
      rw [hIH2]
      simp


theorem replaceFuel_cons (pat repl : List Char) (f : Nat) (x : Char)
    (xs : List Char) :
    replaceFuel pat repl (f + 1) (x :: xs) =
      if pat ≠ [] && pat.isPrefixOf (x :: xs) then
        repl ++ replaceFuel pat repl f ((x :: xs).drop pat.length)
      else x :: replaceFuel pat repl f xs := rfl

theorem replaceFuel_tab_length :
    ∀ (l : List Char) (f : Nat), l.length ≤ f →
      (replaceFuel ['\t'] [' ', ' ', ' ', ' '] f l).length = indentWeight l := by
  intro l
  induction l with
  | nil =>
    intro f _
    cases f <;> rfl
  | cons c cs ih =>
    intro f h
    cases f with
    | zero => simp at h
    | succ f =>
      have hcs : cs.length ≤ f := by
        simpa using Nat.le_of_succ_le_succ h
      rw [replaceFuel_cons]
      by_cases hc : c = '\t'
      · rw [if_pos (by subst hc; simp [List.isPrefixOf])]
        subst hc
        simp only [List.length_append, List.length_singleton,
          List.drop_succ_cons, List.drop_zero]
        rw [ih f hcs]
        simp [indentWeight]
      · rw [if_neg (by
          simp only [ne_eq, Bool.and_eq_true, decide_eq_true_eq]
          rintro ⟨-, hpre⟩
          have : '\t' = c ∧ List.isPrefixOf [] cs := by
            simpa [List.isPrefixOf] using hpre
          exact hc this.1.symm)]
        simp only [List.length_cons]
        rw [ih f hcs]
        simp only [indentWeight, if_neg hc]
        omega

/-- The indent-to-level computation matches its specification. -/
theorem indentLevel_formula (s : String) :
    indentLevel s = indentWeight s.data / 2 := by
  unfold indentLevel pyReplace
  have : (String.mk (replaceFuel "\t".data "    ".data s.data.length
      s.data)).length = indentWeight s.data := by
    show (replaceFuel "\t".data "    ".data s.data.length s.data).length =
      indentWeight s.data
    exact replaceFuel_tab_length s.data s.data.length (le_refl _)
  rw [this]


/-- C4: the outline assembler parents `Intro` and `Next` under `Part One`
and `Details` under `Intro` for the four-line outline; in general an
entry run folded through `pushEntry` and closed yields exactly the
nearest-preceding-shallower forest (`buildForest`), and the indent-to-level
computation counts a tab as four spaces and divides by two. -/
theorem c4_outline_nesting :
    getPagesFromSummary {}
      ["# Part One\n", "- [Intro](intro.md)\n", "  - [Details](details.md)\n",
       "- [Next](next.md)\n"] =
      [⟨"Part One", none, "", some "SUMMARY.md", [], []⟩,
       ⟨"Intro", some "Part One", "", none, [], []⟩,
       ⟨"Details", some "Intro", "", none, [], []⟩,
       ⟨"Next", some "Part One", "", none, [], []⟩] ∧
    (∀ (ws : List (Nat × SummaryItem)) (done : List SummaryItem),
      (closeSpineAll (ws.foldl (fun st e => pushEntry e.1 e.2 st)
        ⟨done, none, []⟩)).done = done ++ buildForest ws) ∧
    (∀ s : String, indentLevel s = indentWeight s.data / 2) :=
  ⟨by decide,
   fun ws done => pushFold_buildForest ws.length ws rfl done,
   indentLevel_formula⟩


theorem joinSegs_length (s1 s2 : List String) (n1 n2 : Nat)
    (h1 : s1.length = n1 + 1) (h2 : s2.length = n2 + 1) :
    (joinSegs s1 s2).length = n1 + n2 + 1 := by
  unfold joinSegs
  cases s2 with
  | nil => simp at h2
  | cons b bs =>
    simp only [List.length_append, List.length_dropLast, h1,
      List.length_cons, List.tail_cons]
    simp only [List.length_cons] at h2
    omega

theorem cons_prepend_interleave (a : String) (s2 : List String)
    (t2 : List String) (h2 : s2.length = t2.length + 1) :
    a ++ interleave s2 t2 =
      interleave ((a ++ s2.head?.getD "") :: s2.tail) t2 := by
  cases s2 with
  | nil => simp at h2
  | cons b bs =>
    cases t2 with
    | nil =>
      simp only [List.length_cons, List.length_nil] at h2
      have : bs = [] := List.length_eq_zero.mp (by omega)
      subst this
      simp [interleave]
    | cons t ts =>
      simp only [interleave, List.head?_cons, Option.getD_some,
        List.tail_cons]
      simp [String.append_assoc]

theorem interleave_append :
    ∀ (t1 s1 t2 s2 : List String),
    s1.length = t1.length + 1 → s2.length = t2.length + 1 →
    interleave s1 t1 ++ interleave s2 t2 =
      interleave (joinSegs s1 s2) (t1 ++ t2) := by
  intro t1
  induction t1 with
  | nil =>
    intro s1 t2 s2 h1 h2
    cases s1 with
    | nil => simp at h1
    | cons a as =>
      simp only [List.length_cons, List.length_nil] at h1
      have : as = [] := List.length_eq_zero.mp (by omega)
      subst this
      unfold joinSegs
      simp only [List.dropLast_single, List.getLast?_singleton,
        Option.getD_some, List.nil_append]
      rw [show interleave [a] [] = a from rfl]
      exact cons_prepend_interleave a s2 t2 h2
  | cons t ts ih =>
    intro s1 t2 s2 h1 h2
    cases s1 with
    | nil => simp at h1
    | cons a as =>
      simp only [List.length_cons] at h1
      have has : as.length = ts.length + 1 := by omega
      have hasne : as ≠ [] := by
        intro hc
        rw [hc] at has
        simp at has
      cases as with
      | nil => exact absurd rfl hasne
      | cons b bs =>
        have hjoin : joinSegs (a :: b :: bs) s2 =
            a :: joinSegs (b :: bs) s2 := by
          unfold joinSegs
          rw [List.dropLast_cons₂, List.getLast?_cons_cons]
          simp
        rw [List.cons_append, hjoin]
        rw [show interleave (a :: b :: bs) (t :: ts) =
          a ++ t ++ interleave (b :: bs) ts from rfl]
        rw [show interleave (a :: joinSegs (b :: bs) s2) (t :: (ts ++ t2)) =
          a ++ t ++ interleave (joinSegs (b :: bs) s2) (ts ++ t2) from rfl]
        rw [← ih (b :: bs) t2 s2 has h2]
        simp [String.append_assoc]


theorem RelDecomp.ofTrivial (supply : Nat → String) (st st' : RendererState)
    (out : String)
    (hrl : st'.relative_links = st.relative_links)
    (huc : st'.uuidCount = st.uuidCount) :
    RelDecomp supply st st' out 0 :=
  ⟨[], [out], by simp [hrl], rfl, by simp [huc], by simp, rfl, rfl⟩

theorem RelDecomp.cast {supply : Nat → String} {st st' : RendererState}
    {out : String} {m n : Nat}
    (h : RelDecomp supply st st' out m) (he : m = n) :
    RelDecomp supply st st' out n := he ▸ h

theorem RelDecomp.comp {supply : Nat → String} {st st1 st2 : RendererState}
    {out1 out2 : String} {n1 n2 : Nat}
    (h1 : RelDecomp supply st st1 out1 n1)
    (h2 : RelDecomp supply st1 st2 out2 n2) :
    RelDecomp supply st st2 (out1 ++ out2) (n1 + n2) := by
  obtain ⟨r1, s1, hrl1, hlen1, huc1, hrep1, hsl1, hout1⟩ := h1
  obtain ⟨r2, s2, hrl2, hlen2, huc2, hrep2, hsl2, hout2⟩ := h2
  refine ⟨r1 ++ r2, joinSegs s1 s2, ?_, ?_, ?_, ?_, ?_, ?_⟩
  · rw [hrl2, hrl1, List.append_assoc]
  · simp [hlen1, hlen2]
  · rw [huc2, huc1, Nat.add_assoc]
  · rw [List.map_append, hrep1, hrep2, huc1, List.range_add,
      List.map_append, List.map_map]
    simp [Function.comp, Nat.add_assoc]
  · rw [joinSegs_length s1 s2 n1 n2 hsl1 hsl2]
  · rw [hout1, hout2, List.map_append]
    exact interleave_append (r1.map (fun r => r.replacement)) s1
      (r2.map (fun r => r.replacement)) s2
      (by rw [hsl1, List.length_map, hlen1]) (by rw [hsl2, List.length_map, hlen2])


theorem interleave_singleton (s : String) : interleave [s] [] = s := rfl

theorem rendererImage_state (st : RendererState) (text url : String)
    (title : Option String) :
    (rendererImage st text url title).2.relative_links = st.relative_links ∧
    (rendererImage st text url title).2.uuidCount = st.uuidCount := by
  unfold rendererImage
  by_cases h : (urlparse url).netloc = ""
  · rw [if_pos h]
    exact ⟨rfl, rfl⟩
  · rw [if_neg h]
    exact ⟨rfl, rfl⟩

theorem rendererLink_decomp (cfg : RendererConfig) (supply : Nat → String)
    (st : RendererState) (text url : String) (title : Option String) :
    RelDecomp supply st (rendererLink cfg supply st text url title).2
      (rendererLink cfg supply st text url title).1
      (if isRelLink cfg url then 1 else 0) := by
  unfold rendererLink isRelLink
  simp only []
  by_cases hb1 : (((urlparse url).scheme = "" && (urlparse url).netloc = "" &&
      (urlparse url).path ≠ "") &&
      endsWithAny (pyLower (urlparse url).path)
      (imageExtensions ++ videoExtensions)) = true
  · rw [if_pos hb1]
    obtain ⟨ha, he⟩ := Bool.and_eq_true_iff.mp hb1
    rw [show (cfg.enable_relative_links && ((urlparse url).scheme = "" && (urlparse url).netloc = "" &&
      (urlparse url).path ≠ "") &&
        !endsWithAny (pyLower (urlparse url).path)
      (imageExtensions ++ videoExtensions) &&
        !endsWithAny (pyLower (urlparse url).path) documentExtensions) = false by
      rw [he]
      simp]
    simp only [Bool.false_eq_true, if_false]
    exact RelDecomp.ofTrivial supply st _ _
      (rendererImage_state st text url title).1
      (rendererImage_state st text url title).2
  · rw [if_neg hb1]
    by_cases hb2 : (((urlparse url).scheme = "" && (urlparse url).netloc = "" &&
      (urlparse url).path ≠ "") &&
        endsWithAny (pyLower (urlparse url).path) documentExtensions) = true
    · rw [if_pos hb2]
      obtain ⟨ha, he⟩ := Bool.and_eq_true_iff.mp hb2
      rw [show (cfg.enable_relative_links && ((urlparse url).scheme = "" && (urlparse url).netloc = "" &&
      (urlparse url).path ≠ "") &&
          !endsWithAny (pyLower (urlparse url).path)
      (imageExtensions ++ videoExtensions) &&
          !endsWithAny (pyLower (urlparse url).path) documentExtensions) = false by
        rw [he]
        simp]
      simp only [Bool.false_eq_true, if_false]
      exact RelDecomp.ofTrivial supply st _ _ rfl rfl
    · rw [if_neg hb2]
      by_cases hb3 : (cfg.enable_relative_links &&
          ((urlparse url).scheme = "" && (urlparse url).netloc = "" &&
      (urlparse url).path ≠ "")) = true
      · rw [if_pos hb3]
        obtain ⟨he, ha⟩ := Bool.and_eq_true_iff.mp hb3
        have he1 : (endsWithAny (pyLower (urlparse url).path)
      (imageExtensions ++ videoExtensions)) = false := by
          cases hx : (endsWithAny (pyLower (urlparse url).path)
      (imageExtensions ++ videoExtensions)) with
          | false => rfl
          | true => exact absurd (by rw [ha, hx]; rfl) hb1
        have he2 : (endsWithAny (pyLower (urlparse url).path) documentExtensions) = false := by
          cases hx : (endsWithAny (pyLower (urlparse url).path) documentExtensions) with
          | false => rfl
          | true => exact absurd (by rw [ha, hx]; rfl) hb2
        rw [show (cfg.enable_relative_links && ((urlparse url).scheme = "" && (urlparse url).netloc = "" &&
      (urlparse url).path ≠ "") &&
            !endsWithAny (pyLower (urlparse url).path)
      (imageExtensions ++ videoExtensions) &&
            !endsWithAny (pyLower (urlparse url).path) documentExtensions) = true by
          simp only [Bool.and_eq_true, decide_eq_true_eq] at ha
          simp [he, he1, he2, ha.1.1, ha.1.2, ha.2]]
        simp only [if_true]
        refine ⟨[⟨unquote (urlparse url).path, (urlparse url).fragment,
            replacementToken supply st.uuidCount, url,
            escapeOriginal url⟩],
          ["<a href=\"",
           "\"" ++ (match title with
             | some t => if t = "" then "" else " title=\"" ++ t ++ "\""
             | none => "") ++ ">" ++ text ++ "</a>"],
          rfl, rfl, rfl, rfl, rfl, ?_⟩
        simp only [List.map_cons, List.map_nil]
        unfold superLink interleave
        simp [String.append_assoc, interleave_singleton]
      · rw [if_neg hb3]
        rw [show (cfg.enable_relative_links && ((urlparse url).scheme = "" && (urlparse url).netloc = "" &&
      (urlparse url).path ≠ "") &&
            !endsWithAny (pyLower (urlparse url).path)
      (imageExtensions ++ videoExtensions) &&
            !endsWithAny (pyLower (urlparse url).path) documentExtensions) = false by
          cases hx : (cfg.enable_relative_links &&
              ((urlparse url).scheme = "" && (urlparse url).netloc = "" &&
      (urlparse url).path ≠ "")) with
          | false => simp [hx]
          | true => exact absurd hx hb3]
        simp only [Bool.false_eq_true, if_false]
        exact RelDecomp.ofTrivial supply st _ _ rfl rfl


theorem renderInlines_cons (cfg : RendererConfig) (supply : Nat → String)
    (st : RendererState) (i : Inline) (rest : List Inline) :
    renderInlines cfg supply st (i :: rest) =
      ((renderInline cfg supply st i).1 ++
        (renderInlines cfg supply (renderInline cfg supply st i).2 rest).1,
       (renderInlines cfg supply (renderInline cfg supply st i).2 rest).2) := by
  rcases h1 : renderInline cfg supply st i with ⟨s, st1⟩
  simp only []
  rcases h2 : renderInlines cfg supply st1 rest with ⟨s2, st2⟩
  simp only []
  unfold renderInlines
  rw [h1]
  simp only []
  rw [h2]

theorem renderBlocks_cons (cfg : RendererConfig) (supply : Nat → String)
    (st : RendererState) (b : Block) (rest : List Block) :
    renderBlocks cfg supply st (b :: rest) =
      ((renderBlock cfg supply st b).1 ++
        (renderBlocks cfg supply (renderBlock cfg supply st b).2 rest).1,
       (renderBlocks cfg supply (renderBlock cfg supply st b).2 rest).2) := by
  rcases h1 : renderBlock cfg supply st b with ⟨s, st1⟩
  simp only []
  rcases h2 : renderBlocks cfg supply st1 rest with ⟨s2, st2⟩
  simp only []
  unfold renderBlocks
  rw [h1]
  simp only []
  rw [h2]

theorem renderBlock_paragraph (cfg : RendererConfig) (supply : Nat → String)
    (st : RendererState) (ins : List Inline) :
    renderBlock cfg supply st (.paragraph ins) =
      (superParagraph (renderInlines cfg supply st ins).1,
       (renderInlines cfg supply st ins).2) := by
  rcases h1 : renderInlines cfg supply st ins with ⟨s, st1⟩
  simp only []
  unfold renderBlock
  simp only []
  rw [h1]

theorem renderInline_decomp (cfg : RendererConfig) (supply : Nat → String)
    (st : RendererState) (i : Inline) :
    RelDecomp supply st (renderInline cfg supply st i).2
      (renderInline cfg supply st i).1 (inlineRelCount cfg i) := by
  cases i with
  | text s => exact RelDecomp.ofTrivial supply st _ _ rfl rfl
  | link inner url title => exact rendererLink_decomp cfg supply st inner url title
  | image alt url title =>
    exact RelDecomp.ofTrivial supply st _ _
      (rendererImage_state st alt url title).1
      (rendererImage_state st alt url title).2
  | inlineMath s => exact RelDecomp.ofTrivial supply st _ _ rfl rfl

theorem renderInlines_decomp (cfg : RendererConfig) (supply : Nat → String) :
    ∀ (l : List Inline) (st : RendererState),
    RelDecomp supply st (renderInlines cfg supply st l).2
      (renderInlines cfg supply st l).1 (inlinesRelCount cfg l) := by
  intro l
  induction l with
  | nil =>
    intro st
    exact RelDecomp.ofTrivial supply st _ _ rfl rfl
  | cons i rest ih =>
    intro st
    rw [renderInlines_cons]
    have := (renderInline_decomp cfg supply st i).comp
      (ih (renderInline cfg supply st i).2)
    exact this.cast (by simp [inlinesRelCount])

theorem renderBlock_decomp (cfg : RendererConfig) (supply : Nat → String)
    (st : RendererState) (b : Block) :
    RelDecomp supply st (renderBlock cfg supply st b).2
      (renderBlock cfg supply st b).1 (blockRelCount cfg b) := by
  cases b with
  | paragraph ins =>
    rw [renderBlock_paragraph]
    have hinner := renderInlines_decomp cfg supply ins st
    have hpre : RelDecomp supply st st "<p>" 0 :=
      RelDecomp.ofTrivial supply st st _ rfl rfl
    have hpost : RelDecomp supply (renderInlines cfg supply st ins).2
        (renderInlines cfg supply st ins).2 "</p>\n" 0 :=
      RelDecomp.ofTrivial supply _ _ _ rfl rfl
    have := (hpre.comp hinner).comp hpost
    refine this.cast (by simp [blockRelCount])
  | heading level text =>
    unfold renderBlock rendererHeading
    simp only []
    by_cases h1 : (st.title = none && decide (level = 1)) = true
    · rw [if_pos h1]
      by_cases h2 : cfg.strip_header = true
      · rw [if_pos h2]
        exact RelDecomp.ofTrivial supply st _ _ rfl rfl
      · rw [if_neg h2]
        exact RelDecomp.ofTrivial supply st _ _ rfl rfl
    · rw [if_neg h1]
      exact RelDecomp.ofTrivial supply st _ _ rfl rfl
  | blockCode code info => exact RelDecomp.ofTrivial supply st _ _ rfl rfl
  | blockMath s => exact RelDecomp.ofTrivial supply st _ _ rfl rfl

theorem renderBlocks_decomp (cfg : RendererConfig) (supply : Nat → String) :
    ∀ (bs : List Block) (st : RendererState),
    RelDecomp supply st (renderBlocks cfg supply st bs).2
      (renderBlocks cfg supply st bs).1 (blocksRelCount cfg bs) := by
  intro bs
  induction bs with
  | nil =>
    intro st
    exact RelDecomp.ofTrivial supply st _ _ rfl rfl
  | cons b rest ih =>
    intro st
    rw [renderBlocks_cons]
    have := (renderBlock_decomp cfg supply st b).comp
      (ih (renderBlock cfg supply st b).2)
    exact this.cast (by simp [blocksRelCount])


theorem prefixOf_trans {a b c : List Char} (h1 : a.isPrefixOf b = true)
    (h2 : b.isPrefixOf c = true) : a.isPrefixOf c = true := by
  rw [List.isPrefixOf_iff_prefix] at h1 h2 ⊢
  exact h1.trans h2

theorem prefixOf_length_eq {a b s : List Char}
    (ha : a.isPrefixOf s = true) (hb : b.isPrefixOf s = true)
    (hl : a.length = b.length) : a = b := by
  rw [List.isPrefixOf_iff_prefix] at ha hb
  rw [List.prefix_iff_eq_take.mp ha, List.prefix_iff_eq_take.mp hb, hl]

theorem occAt_site (pre pat suf : List Char) :
    pat.isPrefixOf ((pre ++ pat ++ suf).drop pre.length) = true := by
  rw [List.append_assoc, List.drop_left]
  rw [List.isPrefixOf_iff_prefix]
  exact List.prefix_append pat suf

/-- Each token of an interleaving occurs at its substitution site. -/
theorem interleave_site :
    ∀ (toks segs : List String), segs.length = toks.length + 1 →
    ∀ i : Fin toks.length, ∃ pre suf : List Char,
      (interleave segs toks).data = pre ++ (toks.get i).data ++ suf := by
  intro toks
  induction toks with
  | nil => intro segs _ i; exact absurd i.isLt (by simp)
  | cons t ts ih =>
    intro segs hlen i
    cases segs with
    | nil => simp at hlen
    | cons sg ss =>
      simp only [List.length_cons] at hlen
      cases i using Fin.cases with
      | zero =>
        refine ⟨sg.data, (interleave ss ts).data, ?_⟩
        rw [show interleave (sg :: ss) (t :: ts) =
          sg ++ t ++ interleave ss ts from rfl]
        simp [List.append_assoc]
      | succ k =>
        obtain ⟨pre, suf, hps⟩ := ih ss (by omega) k
        refine ⟨sg.data ++ t.data ++ pre, suf, ?_⟩
        rw [show interleave (sg :: ss) (t :: ts) =
          sg ++ t ++ interleave ss ts from rfl]
        show (sg ++ t ++ interleave ss ts).data = _
        rw [show (sg ++ t ++ interleave ss ts).data =
          sg.data ++ t.data ++ (interleave ss ts).data from rfl, hps]
        simp [List.append_assoc]

theorem nodup_all_eq_length_one {l : List Nat} {a : Nat}
    (hnd : l.Nodup) (hmem : a ∈ l) (hall : ∀ x ∈ l, x = a) :
    l.length = 1 := by
  cases l with
  | nil => simp at hmem
  | cons x xs =>
    cases xs with
    | nil => rfl
    | cons y ys =>
      have hx : x = a := hall x (by simp)
      have hy : y = a := hall y (by simp)
      rw [List.nodup_cons] at hnd
      exact absurd (by simp [hx, hy]) hnd.1

/-- The central counting argument: if a shared nonempty marker prefixes all
tokens, the tokens are distinct and of equal length, and the marker occurs
in the interleaving only as often as there are tokens, then each token
occurs exactly once. -/
theorem interleave_count_one (segs toks : List String) (marker : String)
    (hm : marker.data ≠ [])
    (hlen : segs.length = toks.length + 1)
    (hpre : ∀ t ∈ toks, marker.data.isPrefixOf t.data = true)
    (heq : ∀ t1 ∈ toks, ∀ t2 ∈ toks, t1.data.length = t2.data.length)
    (hnd : toks.Nodup)
    (hcnt : countOccur marker (interleave segs toks) = toks.length) :
    ∀ i : Fin toks.length,
      countOccur (toks.get i) (interleave segs toks) = 1 := by
  set body := (interleave segs toks).data with hbody
  have hmem : ∀ j : Fin toks.length, toks.get j ∈ toks :=
    fun j => List.mem_iff_get.mpr ⟨j, rfl⟩
  have hsite : ∀ i : Fin toks.length, ∃ p : Nat,
      (toks.get i).data.isPrefixOf (body.drop p) = true := by
    intro i
    obtain ⟨pre, suf, hps⟩ := interleave_site toks segs hlen i
    exact ⟨pre.length, by rw [hbody, hps]; exact occAt_site pre _ suf⟩
  choose pos hpos using hsite
  have htokne : ∀ i : Fin toks.length, (toks.get i).data ≠ [] := by
    intro i hc
    have := hpre (toks.get i) (hmem i)
    rw [hc, List.isPrefixOf_iff_prefix] at this
    exact hm (List.prefix_nil.mp this)
  have hposlt : ∀ i : Fin toks.length, pos i < body.length := by
    intro i
    by_contra hge
    have hdrop : body.drop (pos i) = [] :=
      List.drop_eq_nil_of_le (by omega)
    have := hpos i
    rw [hdrop, List.isPrefixOf_iff_prefix] at this
    exact htokne i (List.prefix_nil.mp this)
  have hmarkat : ∀ i : Fin toks.length,
      marker.data.isPrefixOf (body.drop (pos i)) = true := by
    intro i
    exact prefixOf_trans (hpre (toks.get i) (hmem i)) (hpos i)
  have hposinj : Function.Injective pos := by
    intro i j hij
    have h1 := hpos i
    have h2 := hpos j
    rw [hij] at h1
    have := prefixOf_length_eq h1 h2
      (heq _ (hmem i) _ (hmem j))
    exact List.nodup_iff_injective_get.mp hnd (String.ext this)
  have hS : ∀ i : Fin toks.length,
      pos i ∈ (List.range body.length).filter
        (fun k => marker.data.isPrefixOf (body.drop k)) := by
    intro i
    rw [List.mem_filter, List.mem_range]
    exact ⟨hposlt i, hmarkat i⟩
  -- the marker-occurrence list has exactly the substitution sites
  have hSnd : ((List.range body.length).filter
      (fun k => marker.data.isPrefixOf (body.drop k))).Nodup :=
    (List.nodup_range body.length).filter _
  have hcard : ((List.range body.length).filter
      (fun k => marker.data.isPrefixOf (body.drop k))).toFinset.card =
      toks.length := by
    rw [List.toFinset_card_of_nodup hSnd]
    exact hcnt
  have hsub : (Finset.univ : Finset (Fin toks.length)).image pos ⊆
      ((List.range body.length).filter
        (fun k => marker.data.isPrefixOf (body.drop k))).toFinset := by
    intro x hx
    rw [Finset.mem_image] at hx
    obtain ⟨i, _, hi⟩ := hx
    rw [List.mem_toFinset]
    exact hi ▸ hS i
  have himgcard : ((Finset.univ : Finset (Fin toks.length)).image pos).card =
      toks.length := by
    rw [Finset.card_image_of_injective _ hposinj, Finset.card_univ,
      Fintype.card_fin]
  have heqset : (Finset.univ : Finset (Fin toks.length)).image pos =
      ((List.range body.length).filter
        (fun k => marker.data.isPrefixOf (body.drop k))).toFinset :=
    Finset.eq_of_subset_of_card_le hsub (by rw [hcard, himgcard])
  have hallsites : ∀ k, marker.data.isPrefixOf (body.drop k) = true →
      k < body.length → ∃ j : Fin toks.length, k = pos j := by
    intro k hk hklt
    have : k ∈ ((List.range body.length).filter
        (fun k => marker.data.isPrefixOf (body.drop k))).toFinset := by
      rw [List.mem_toFinset, List.mem_filter, List.mem_range]
      exact ⟨hklt, hk⟩
    rw [← heqset, Finset.mem_image] at this
    obtain ⟨j, _, hj⟩ := this
    exact ⟨j, hj.symm⟩
  intro i
  unfold countOccur
  apply nodup_all_eq_length_one ((List.nodup_range _).filter _)
  · rw [List.mem_filter, List.mem_range]
    exact ⟨hposlt i, hpos i⟩
  · intro x hx
    rw [List.mem_filter, List.mem_range] at hx
    obtain ⟨hxlt, hxat⟩ := hx
    have hmx : marker.data.isPrefixOf (body.drop x) = true :=
      prefixOf_trans (hpre (toks.get i) (hmem i)) hxat
    obtain ⟨j, hj⟩ := hallsites x hmx hxlt
    rw [hj] at hxat
    have := prefixOf_length_eq hxat (hpos j)
      (heq _ (hmem i) _ (hmem j))
    have hii : i = j := List.nodup_iff_injective_get.mp hnd (String.ext this)
    rw [hj, hii]


theorem parsePage_eq (cfg : RendererConfig) (supply : Nat → String)
    (blocks : List Block) :
    parsePage cfg supply blocks =
      { title := (renderBlocks cfg supply {} blocks).2.title,
        body := (renderBlocks cfg supply {} blocks).1,
        attachments := (renderBlocks cfg supply {} blocks).2.attachments,
        relative_links :=
          (renderBlocks cfg supply {} blocks).2.relative_links } := by
  rcases h : renderBlocks cfg supply {} blocks with ⟨b, st⟩
  simp only []
  unfold parsePage
  rw [h]

/-- C8: with relative links enabled, a document with `N` qualifying relative
links yields exactly `N` `RelativeLink` records whose replacements are the
consecutive placeholder draws; the draws are pairwise distinct when the
uuid source does not repeat; the rendered body is the alternation of
link-free segments with the placeholders; and when the placeholder marker
occurs in the body only at the `N` substitution sites (the
collision-resistance of the uuid source) with same-length distinct draws,
every replacement occurs in the body exactly once. -/
theorem c8_replacement_tokens (cfg : RendererConfig) (supply : Nat → String)
    (doc : List Block) (hrel : cfg.enable_relative_links = true) :
    (parsePage cfg supply doc).relative_links.length =
      blocksRelCount cfg doc ∧
    (parsePage cfg supply doc).relative_links.map (fun r => r.replacement) =
      (List.range (blocksRelCount cfg doc)).map (replacementToken supply) ∧
    ((∀ m n, m < blocksRelCount cfg doc → n < blocksRelCount cfg doc →
        supply m = supply n → m = n) →
      ((parsePage cfg supply doc).relative_links.map
        (fun r => r.replacement)).Nodup) ∧
    (∃ segs, segs.length = blocksRelCount cfg doc + 1 ∧
      (parsePage cfg supply doc).body = interleave segs
        ((parsePage cfg supply doc).relative_links.map
          (fun r => r.replacement))) ∧
    (((parsePage cfg supply doc).relative_links.map
        (fun r => r.replacement)).Nodup →
     (∀ t1 ∈ (parsePage cfg supply doc).relative_links.map
        (fun r => r.replacement),
      ∀ t2 ∈ (parsePage cfg supply doc).relative_links.map
        (fun r => r.replacement), t1.length = t2.length) →
     countOccur "md2cf-internal-link-" (parsePage cfg supply doc).body =
       blocksRelCount cfg doc →
     ∀ t ∈ (parsePage cfg supply doc).relative_links.map
        (fun r => r.replacement),
       countOccur t (parsePage cfg supply doc).body = 1) := by
  obtain ⟨recs, segs, hrl, hlen, huc, hrep, hsl, hout⟩ :=
    renderBlocks_decomp cfg supply doc {}
  have hpageL : (parsePage cfg supply doc).relative_links = recs := by
    rw [parsePage_eq]
    simp only []
    rw [hrl]
    rfl
  have hpageB : (parsePage cfg supply doc).body =
      (renderBlocks cfg supply {} doc).1 := by
    rw [parsePage_eq]
  have hrep0 : recs.map (fun r => r.replacement) =
      (List.range (blocksRelCount cfg doc)).map (replacementToken supply) := by
    rw [hrep]
    simp
  have htoklen : (recs.map (fun r => r.replacement)).length =
      blocksRelCount cfg doc := by
    rw [List.length_map, hlen]
  refine ⟨by rw [hpageL, hlen], by rw [hpageL, hrep0], ?_, ?_, ?_⟩
  · intro hinj
    rw [hpageL, hrep0]
    refine (List.nodup_range _).map_on ?_
    intro m hm n hn hmn
    rw [List.mem_range] at hm hn
    refine hinj m n hm hn ?_
    unfold replacementToken at hmn
    have := congrArg String.data hmn
    rw [show ("md2cf-internal-link-" ++ supply m).data =
      "md2cf-internal-link-".data ++ (supply m).data from rfl,
      show ("md2cf-internal-link-" ++ supply n).data =
      "md2cf-internal-link-".data ++ (supply n).data from rfl] at this
    exact String.ext (List.append_cancel_left this)
  · exact ⟨segs, by rw [hsl], by rw [hpageB, hpageL, hout]⟩
  · intro hnd hleq hcnt t ht
    rw [hpageL] at hnd hleq ht
    rw [hpageB] at hcnt ⊢
    rw [hout] at hcnt ⊢
    have hslen : segs.length = (recs.map (fun r => r.replacement)).length + 1 := by
      rw [htoklen]
      exact hsl
    have hpre : ∀ t ∈ recs.map (fun r => r.replacement),
        ("md2cf-internal-link-" : String).data.isPrefixOf t.data = true := by
      intro t2 ht2
      rw [hrep0] at ht2
      obtain ⟨k, _, hk⟩ := List.mem_map.mp ht2
      rw [← hk]
      unfold replacementToken
      rw [show ("md2cf-internal-link-" ++ supply k).data =
        ("md2cf-internal-link-" : String).data ++ (supply k).data from rfl]
      rw [List.isPrefixOf_iff_prefix]
      exact List.prefix_append _ _
    have heq2 : ∀ t1 ∈ recs.map (fun r => r.replacement),
        ∀ t2 ∈ recs.map (fun r => r.replacement),
        t1.data.length = t2.data.length := by
      intro t1 h1 t2 h2
      exact hleq t1 h1 t2 h2
    have hone := interleave_count_one segs (recs.map (fun r => r.replacement))
      "md2cf-internal-link-" (by decide) hslen hpre heq2 hnd
      (by rw [htoklen]; exact hcnt)
    obtain ⟨i, hi⟩ := List.mem_iff_get.mp ht
    rw [← hi]
    exact hone i


theorem c8_replacement_tokens_witness :
    (parsePage { enable_relative_links := true } (fun n => toString n)
      [Block.paragraph [Inline.link "t" "other.md" none]]).relative_links.length =
      blocksRelCount { enable_relative_links := true }
        [Block.paragraph [Inline.link "t" "other.md" none]] ∧
    (parsePage { enable_relative_links := true } (fun n => toString n)
      [Block.paragraph [Inline.link "t" "other.md" none]]).relative_links.map
        (fun r => r.replacement) =
      (List.range (blocksRelCount { enable_relative_links := true }
        [Block.paragraph [Inline.link "t" "other.md" none]])).map
        (replacementToken (fun n => toString n)) ∧
    ((∀ m n, m < blocksRelCount { enable_relative_links := true }
        [Block.paragraph [Inline.link "t" "other.md" none]] →
      n < blocksRelCount { enable_relative_links := true }
        [Block.paragraph [Inline.link "t" "other.md" none]] →
      toString m = toString n → m = n) →
      ((parsePage { enable_relative_links := true } (fun n => toString n)
        [Block.paragraph [Inline.link "t" "other.md" none]]).relative_links.map
          (fun r => r.replacement)).Nodup) ∧
    (∃ segs, segs.length = blocksRelCount { enable_relative_links := true }
        [Block.paragraph [Inline.link "t" "other.md" none]] + 1 ∧
      (parsePage { enable_relative_links := true } (fun n => toString n)
        [Block.paragraph [Inline.link "t" "other.md" none]]).body =
        interleave segs
          ((parsePage { enable_relative_links := true } (fun n => toString n)
            [Block.paragraph [Inline.link "t" "other.md" none]]).relative_links.map
            (fun r => r.replacement))) ∧
    (((parsePage { enable_relative_links := true } (fun n => toString n)
        [Block.paragraph [Inline.link "t" "other.md" none]]).relative_links.map
          (fun r => r.replacement)).Nodup →
     (∀ t1 ∈ (parsePage { enable_relative_links := true } (fun n => toString n)
        [Block.paragraph [Inline.link "t" "other.md" none]]).relative_links.map
          (fun r => r.replacement),
      ∀ t2 ∈ (parsePage { enable_relative_links := true } (fun n => toString n)
        [Block.paragraph [Inline.link "t" "other.md" none]]).relative_links.map
          (fun r => r.replacement), t1.length = t2.length) →
     countOccur "md2cf-internal-link-"
       (parsePage { enable_relative_links := true } (fun n => toString n)
         [Block.paragraph [Inline.link "t" "other.md" none]]).body =
       blocksRelCount { enable_relative_links := true }
         [Block.paragraph [Inline.link "t" "other.md" none]] →
     ∀ t ∈ (parsePage { enable_relative_links := true } (fun n => toString n)
        [Block.paragraph [Inline.link "t" "other.md" none]]).relative_links.map
          (fun r => r.replacement),
       countOccur t (parsePage { enable_relative_links := true }
         (fun n => toString n)
         [Block.paragraph [Inline.link "t" "other.md" none]]).body = 1) :=
  c8_replacement_tokens { enable_relative_links := true }
    (fun n => toString n)
    [Block.paragraph [Inline.link "t" "other.md" none]] rfl

end MD2CF
